import Mathlib

/-!
Verification development for the MemoryCloud repository.

Shallow embedding of the server's classification core (`server/routes/memories.js`),
the pairwise link scorer (`server/routes/links.js`) and the client's cluster label
resolver (`client/src/App.jsx`).  JavaScript numbers are modelled as rationals,
JavaScript strings as `String`, nullable / possibly-missing values as `Option`.
-/

namespace MemoryCloud

/-- JavaScript `String.prototype.toLowerCase()`, modelled character-wise. -/
def jsToLower (s : String) : String := ⟨s.data.map Char.toLower⟩

/-- JavaScript `String.prototype.trim()`: strip leading and trailing
whitespace. -/
def jsTrim (s : String) : String :=
  ⟨((s.data.dropWhile Char.isWhitespace).reverse.dropWhile Char.isWhitespace).reverse⟩

/-! ### Theme-vector normalization (server/routes/memories.js, normalizeAxis / normalizeThemeVector) -/

/-- A raw axis entry as it arrives from the external analysis.  `label = none`
models a missing or non-string label; `weight = none` models a missing,
non-number or non-finite weight (the code's `typeof` / `Number.isFinite` checks). -/
structure RawEntry where
  label : Option String
  weight : Option ℚ
deriving DecidableEq

/-- A cleaned axis entry: trimmed non-empty label with a rational weight. -/
structure CEntry where
  label : String
  weight : ℚ
deriving DecidableEq

/-- One step of the `.map(...)` in `normalizeAxis`: trim the label (empty for a
non-string), default a non-number weight to 0 and clamp negatives to 0; drop
entries whose label is empty. -/
def cleanEntry (e : RawEntry) : Option CEntry :=
  let label := jsTrim (e.label.getD "")
  let weight := e.weight.getD 0
  if label = "" then none else some ⟨label, max 0 weight⟩

/-- The cleaned entry list of `normalizeAxis`: clean each entry, drop the
rejected ones, keep at most 4 (`.filter(Boolean).slice(0, 4)`).  A `none`
input models a non-array axis. -/
def cleanedEntries (entries : Option (List RawEntry)) : List CEntry :=
  match entries with
  | none => []
  | some es => (es.filterMap cleanEntry).take 4

/-- `normalizeAxis(entries, fallbackLabel)` from server/routes/memories.js. -/
def normalizeAxis (entries : Option (List RawEntry)) (fallbackLabel : String) : List CEntry :=
  match entries with
  | none => [⟨fallbackLabel, 1⟩]
  | some es =>
    let cleaned := (es.filterMap cleanEntry).take 4
    let total := (cleaned.map (·.weight)).sum
    if cleaned.isEmpty || total ≤ 0 then [⟨fallbackLabel, 1⟩]
    else cleaned.map (fun it => ⟨it.label, it.weight / total⟩)

/-- A raw theme vector from the external analysis; each axis may be missing
or malformed (`none`). -/
structure RawThemeVector where
  emotionalCore : Option (List RawEntry)
  narrativeState : Option (List RawEntry)
  relationalFocus : Option (List RawEntry)
  temporalOrientation : Option (List RawEntry)
  spatialIntimacy : Option (List RawEntry)
deriving DecidableEq

/-- A normalized theme vector: the five fixed axes. -/
structure ThemeVector where
  emotionalCore : List CEntry
  narrativeState : List CEntry
  relationalFocus : List CEntry
  temporalOrientation : List CEntry
  spatialIntimacy : List CEntry
deriving DecidableEq

/-- `normalizeThemeVector(themeVector)` from server/routes/memories.js; a `none`
input models a missing or non-object `themeVector`. -/
def normalizeThemeVector (tv : Option RawThemeVector) : ThemeVector :=
  { emotionalCore := normalizeAxis (tv.bind (·.emotionalCore)) "memory"
    narrativeState := normalizeAxis (tv.bind (·.narrativeState)) "unfinished"
    relationalFocus := normalizeAxis (tv.bind (·.relationalFocus)) "self"
    temporalOrientation := normalizeAxis (tv.bind (·.temporalOrientation)) "memory"
    spatialIntimacy := normalizeAxis (tv.bind (·.spatialIntimacy)) "private" }

/-! ### Analysis normalization (server/routes/memories.js, normalizeAnalysis / normalizeTags) -/

/-- The external analysis object.  `moodAlt` / `emotionAlt` model the `Mood` /
`Emotion` capitalised fields of the JavaScript object; `none` models a missing
or non-string (resp. non-array) field. -/
structure Analysis where
  mood : Option String
  emotion : Option String
  moodAlt : Option String
  emotionAlt : Option String
  tags : Option (List String)
  color : Option String
  themeVector : Option RawThemeVector
deriving DecidableEq

/-- JavaScript `a || b` on nullable strings: an empty string is falsy. -/
def jsOrStr (a b : Option String) : Option String :=
  match a with
  | some s => if s = "" then b else some s
  | none => b

/-- Result of `normalizeAnalysis`. -/
structure NormalizedAnalysis where
  mood : String
  tags : List String
  color : String
  themeVector : ThemeVector
deriving DecidableEq

/-- `normalizeAnalysis(analysis)` from server/routes/memories.js.
Tags are kept verbatim: `filter(Boolean)` (drop empty strings) then
`slice(0, 5)`; the fallback is `['Raw', 'Unsorted']`. -/
def normalizeAnalysis (a : Analysis) : NormalizedAnalysis :=
  let moodRaw := jsOrStr a.mood (jsOrStr a.emotion (jsOrStr a.moodAlt a.emotionAlt))
  let mood := match moodRaw with
    | some s => if jsTrim s = "" then "Fragment" else jsTrim s
    | none => "Fragment"
  let tags := match a.tags with
    | some l => (l.filter (fun t => t ≠ "")).take 5
    | none => ["Raw", "Unsorted"]
  let color := match a.color with
    | some s => if jsTrim s = "" then "#FFFFFF" else jsTrim s
    | none => "#FFFFFF"
  { mood := mood, tags := tags, color := color, themeVector := normalizeThemeVector a.themeVector }

/-- `normalizeTags(tags)` from server/routes/memories.js: trim, lower-case,
drop empties, keep at most 12.  This is the matching-time tag normalization. -/
def normalizeTags (tags : Option (List String)) : List String :=
  match tags with
  | none => []
  | some l => ((l.map (fun t => jsToLower (jsTrim t))).filter (fun t => t ≠ "")).take 12

/-! ### Offline fallback classification and the re-classification sweep's query
(server/routes/memories.js, getOfflineMood / reprocessOfflineMemories) -/

/-- The `OFFLINE_MOODS` table (name, color). -/
def OFFLINE_MOODS : List (String × String) :=
  [("Memory", "#9CA3AF"), ("Reflection", "#60A5FA"), ("Longing", "#A78BFA"),
   ("Quiet Joy", "#34D399"), ("Tension", "#F87171"), ("Relief", "#FBBF24"),
   ("Grief", "#6B7280"), ("Wonder", "#EC4899")]

/-- The fixed theme vector of the offline fallback analysis. -/
def offlineThemeVector : RawThemeVector :=
  { emotionalCore := some [⟨some "memory", some 1⟩]
    narrativeState := some [⟨some "unfinished", some 1⟩]
    relationalFocus := some [⟨some "self", some 1⟩]
    temporalOrientation := some [⟨some "memory", some 1⟩]
    spatialIntimacy := some [⟨some "private", some 1⟩] }

/-- `getOfflineMood()` from server/routes/memories.js.  The random pick
`Math.floor(Math.random() * OFFLINE_MOODS.length)` is modelled by an arbitrary
index `k`; the tags are fixed and independent of the pick. -/
def getOfflineMood (k : ℕ) : Analysis :=
  let chosen := OFFLINE_MOODS.getD (k % OFFLINE_MOODS.length) ("Memory", "#9CA3AF")
  { mood := some chosen.1
    emotion := none
    moodAlt := none
    emotionAlt := none
    tags := some ["Offline", "Auto-classified"]
    color := some chosen.2
    themeVector := some offlineThemeVector }

/-- The selection predicate of the background sweep:
`Memory.find({ tags: 'offline' })` matches a stored document whose `tags`
array contains an element exactly (case-sensitively) equal to `'offline'`. -/
def sweepSelects (tags : List String) : Bool :=
  tags.contains "offline"

/-! ### The capability-budget gate (server/routes/memories.js, checkRateLimit) -/

/-- The module-level mutable state: `requestCount` and `rateLimitResetTime`
(milliseconds, modelled as naturals). -/
structure RateState where
  requestCount : ℕ
  resetTime : ℕ
deriving DecidableEq

/-- `checkRateLimit()`: reset the counter when the window elapsed, deny at 14
requests, otherwise increment and allow.  `now` is `Date.now()`. -/
def checkRateLimit (now : ℕ) (s : RateState) : Bool × RateState :=
  let s := if s.resetTime ≤ now then ⟨0, now + 60000⟩ else s
  if 14 ≤ s.requestCount then (false, s)
  else (true, ⟨s.requestCount + 1, s.resetTime⟩)

/-- A sequence of `checkRateLimit` calls at the given times, threading the
mutable state. -/
def runRateCalls (times : List ℕ) (s : RateState) : List Bool × RateState :=
  match times with
  | [] => ([], s)
  | t :: ts =>
    let r := checkRateLimit t s
    let rest := runRateCalls ts r.2
    (r.1 :: rest.1, rest.2)

/-! ### Pairwise link scorer (server/routes/links.js, buildIdeaLinks) -/

/-- A memory as consumed by `buildIdeaLinks`.  `emotionalCore` holds the
`themeVector.emotionalCore` entry labels after the code's
`String(entry.label || '')` coercion. -/
structure LMemory where
  _id : String
  mood : String
  emotionalCore : List String
  tags : List String
deriving DecidableEq

/-- A link as produced by `buildIdeaLinks`. -/
structure IdeaLink where
  id : String
  fromId : String
  toId : String
  type : String
  score : ℚ
  reason : String
deriving DecidableEq

/-- The fixed contradiction pairs. -/
def contradictions : List (String × String) :=
  [("joy", "grief"), ("love", "anger"), ("hope", "despair"),
   ("fear", "relief"), ("light", "dark"), ("home", "loss")]

/-- The fixed absence vocabulary. -/
def absenceTags : List String := ["unsaid", "silence", "absence", "missing", "hollow"]

/-- JavaScript `String.prototype.includes`: substring containment. -/
def strIncludes (s sub : String) : Bool := decide (sub.toList <:+: s.toList)

/-- `hasContradiction` for a pair of lower-cased moods. -/
def moodsContradict (aMood bMood : String) : Bool :=
  contradictions.any fun p =>
    (strIncludes aMood p.1 && strIncludes bMood p.2) ||
    (strIncludes aMood p.2 && strIncludes bMood p.1)

/-- `sharedCore`: lower-cased emotional-core labels of `a` that are non-empty
and also occur among `b`'s. -/
def sharedCoreLabels (a b : LMemory) : List String :=
  (a.emotionalCore.map jsToLower).filter fun l =>
    l ≠ "" && (b.emotionalCore.map jsToLower).contains l

/-- `sharedTags`: raw tag intersection, `a`'s tags that occur among `b`'s. -/
def sharedTagList (a b : LMemory) : List String :=
  a.tags.filter fun t => b.tags.contains t

/-- Whether a memory carries an absence-vocabulary tag (lower-cased lookup). -/
def hasAbsenceTag (m : LMemory) : Bool :=
  m.tags.any fun t => absenceTags.contains (jsToLower t)

/-- The body of `buildIdeaLinks`'s inner loop for one pair `(a, b)`:
accumulate the score and the first contributing reason, then emit at most one
link. -/
def scorePair (a b : LMemory) : Option IdeaLink :=
  let aMood := jsToLower a.mood
  let bMood := jsToLower b.mood
  let sameMood := aMood ≠ "" && bMood ≠ "" && aMood == bMood
  let hasContradiction := moodsContradict aMood bMood
  let score1 : ℚ := if hasContradiction then 2 else 0
  let reason1 : String := if hasContradiction then "shared contradiction" else ""
  let score2 := if sameMood then score1 + 2 else score1
  let reason2 := if sameMood && reason1 == "" then "shared mood" else reason1
  let sharedCore := sharedCoreLabels a b
  let score3 := if !sharedCore.isEmpty then score2 + 2 else score2
  let reason3 := if !sharedCore.isEmpty && reason2 == "" then "shared emotional core" else reason2
  let sharedTags := sharedTagList a b
  let score4 := if !sharedTags.isEmpty then score3 + min (sharedTags.length : ℚ) 2 else score3
  let reason4 := if !sharedTags.isEmpty && reason3 == "" then "shared image" else reason3
  let mutualAbsence := hasAbsenceTag a && hasAbsenceTag b
  let score5 := if mutualAbsence then score4 + 1 else score4
  let reason5 := if mutualAbsence && reason4 == "" then "shared absence" else reason4
  if sameMood && decide (score5 < 2) then
    some { id := "family:" ++ a._id ++ "-" ++ b._id, fromId := a._id, toId := b._id,
           type := "family", score := 1, reason := "shared family" }
  else if decide (score5 < 2) then none
  else
    some { id := "idea:" ++ a._id ++ "-" ++ b._id, fromId := a._id, toId := b._id,
           type := if sameMood then "family" else "idea", score := score5, reason := reason5 }

/-- All ordered pairs `(memories[i], memories[j])` with `i < j`, in loop order. -/
def allPairs : List α → List (α × α)
  | [] => []
  | x :: xs => (xs.map fun y => (x, y)) ++ allPairs xs

/-- Stable insertion (descending by score), modelling the engine's stable
`Array.prototype.sort((x, y) => y.score - x.score)`. -/
def insertByScoreDesc (x : IdeaLink) : List IdeaLink → List IdeaLink
  | [] => [x]
  | y :: ys => if y.score ≤ x.score then x :: y :: ys else y :: insertByScoreDesc x ys

/-- Stable sort, descending by score. -/
def sortByScoreDesc (ls : List IdeaLink) : List IdeaLink :=
  ls.foldr insertByScoreDesc []

/-- `buildIdeaLinks(memories)` from server/routes/links.js. -/
def buildIdeaLinks (memories : List LMemory) : List IdeaLink :=
  (sortByScoreDesc ((allPairs memories).filterMap fun p => scorePair p.1 p.2)).take 140

/-! ### Similarity primitives and the family-match scorer
(server/routes/memories.js, isValidEmbedding / axisToMap / axisSimilarity /
themeSimilarity / tagSimilarity / scoreFamilyMatch / embedText) -/

/-- `isValidEmbedding(embedding)`: an array of length at least 8 whose total
absolute magnitude is positive. -/
def isValidEmbedding (e : List ℚ) : Bool :=
  if e.length < 8 then false
  else decide (0 < (e.map (fun v => |v|)).sum)

/-- `isValidEmbedding` on a nullable embedding (a family profile may have
`embedding: null`). -/
def isValidEmbeddingOpt : Option (List ℚ) → Bool
  | none => false
  | some e => isValidEmbedding e

/-- Outcome of the external embedding call inside `embedText`'s `try` block. -/
inductive EmbedApiResult where
  | values (v : List ℚ)
  | missing
  | quotaError
  | otherError
deriving DecidableEq

/-- `embedText(text)` from server/routes/memories.js, as a function of the
budget gate's answer and the external call's outcome: a denied or failed call
yields the sentinel `[0, 0, 0]`, as does a malformed or invalid result. -/
def embedText (allowed : Bool) (api : EmbedApiResult) : List ℚ :=
  if !allowed then [0, 0, 0]
  else
    match api with
    | .values v => if isValidEmbedding v then v else [0, 0, 0]
    | .missing => [0, 0, 0]
    | .quotaError => [0, 0, 0]
    | .otherError => [0, 0, 0]

/-- Insert-or-accumulate into an insertion-ordered label-weight map
(the `Map` in `axisToMap`). -/
def upsertAdd (m : List (String × ℚ)) (k : String) (w : ℚ) : List (String × ℚ) :=
  match m with
  | [] => [(k, w)]
  | e :: rest => if e.1 = k then (e.1, e.2 + w) :: rest else e :: upsertAdd rest k w

/-- `axisToMap(axis)`: accumulate lower-cased trimmed labels with positive
weights into an insertion-ordered map. -/
def axisToMap (axis : List CEntry) : List (String × ℚ) :=
  axis.foldl (fun m e =>
    let label := jsToLower (jsTrim e.label)
    if label = "" || decide (e.weight ≤ 0) then m else upsertAdd m label e.weight) []

/-- `map.get(label) || 0`. -/
def mapGet (m : List (String × ℚ)) (k : String) : ℚ :=
  ((m.find? fun p => p.1 == k).map (·.2)).getD 0

/-- `axisSimilarity(leftAxis, rightAxis)`: dot product of the two label-weight
maps; 0 when either map is empty. -/
def axisSimilarity (l r : List CEntry) : ℚ :=
  let lm := axisToMap l
  let rm := axisToMap r
  if lm.isEmpty || rm.isEmpty then 0
  else (lm.map fun p => p.2 * mapGet rm p.1).sum

/-- `themeSimilarity(leftVector, rightVector)`: mean of the five axis
similarities. -/
def themeSimilarity (l r : ThemeVector) : ℚ :=
  (axisSimilarity l.emotionalCore r.emotionalCore +
   axisSimilarity l.narrativeState r.narrativeState +
   axisSimilarity l.relationalFocus r.relationalFocus +
   axisSimilarity l.temporalOrientation r.temporalOrientation +
   axisSimilarity l.spatialIntimacy r.spatialIntimacy) / 5

/-- JavaScript `Set` construction from a list: first-occurrence deduplication. -/
def jsSetDedup (l : List String) : List String :=
  l.foldl (fun acc t => if acc.contains t then acc else acc ++ [t]) []

/-- `tagSimilarity(leftTags, rightTags)`: Jaccard index of the normalized tag
sets; 0 when either set is empty. -/
def tagSimilarity (lt rt : List String) : ℚ :=
  let left := jsSetDedup (normalizeTags (some lt))
  let right := jsSetDedup (normalizeTags (some rt))
  if left.isEmpty || right.isEmpty then 0
  else
    let inter := (left.filter fun t => right.contains t).length
    let uni := left.length + right.length - inter
    if uni = 0 then 0 else (inter : ℚ) / (uni : ℚ)

/-- A candidate memory as scored against family profiles. -/
structure Candidate where
  embedding : List ℚ
  themeVector : ThemeVector
  tags : List String

/-- A family profile as produced by the aggregator (`embedding` may be null). -/
structure FamilyProfile where
  mood : String
  embedding : Option (List ℚ)
  themeVector : ThemeVector
  tags : List String

/-- The weight set of `scoreFamilyMatch`. -/
structure MatchWeights where
  embedding : ℚ
  theme : ℚ
  tags : ℚ

/-- The components record of `scoreFamilyMatch`'s result. -/
structure MatchComponents where
  embeddingScore : ℚ
  themeScore : ℚ
  tagScore : ℚ
  hasEmbedding : Bool

/-- The result of `scoreFamilyMatch`. -/
structure MatchResult where
  score : ℚ
  components : MatchComponents

/-- `scoreFamilyMatch(candidate, family)` from server/routes/memories.js.
The external `cosine-similarity` package (an npm dependency, not repository
code) is abstracted as the `embedSim` parameter. -/
def scoreFamilyMatch (embedSim : List ℚ → List ℚ → ℚ)
    (candidate : Candidate) (family : FamilyProfile) : MatchResult :=
  let hasEmbedding := isValidEmbedding candidate.embedding && isValidEmbeddingOpt family.embedding
  let embeddingScore := if hasEmbedding then embedSim candidate.embedding (family.embedding.getD []) else 0
  let themeScore := themeSimilarity candidate.themeVector family.themeVector
  let tagScore := tagSimilarity candidate.tags family.tags
  let weights : MatchWeights :=
    if hasEmbedding then ⟨6/10, 25/100, 15/100⟩ else ⟨0, 65/100, 35/100⟩
  let totalWeight :=
    if weights.embedding + weights.theme + weights.tags = 0 then 1
    else weights.embedding + weights.theme + weights.tags
  let score := (embeddingScore * weights.embedding + themeScore * weights.theme +
      tagScore * weights.tags) / totalWeight
  { score := score
    components := { embeddingScore := embeddingScore, themeScore := themeScore,
                    tagScore := tagScore, hasEmbedding := hasEmbedding } }

/-! ### Classification decision engine
(server/routes/memories.js, router.post body, lines 658-708: the
`!offlineMode && existingFamilies.length > 0` branch) -/

/-- One entry of `scoredFamilies`: a family name, its match score, and whether
the comparison was embedding-backed (`components.hasEmbedding`). -/
structure ScoredFamily where
  mood : String
  score : ℚ
  hasEmbedding : Bool
deriving DecidableEq

/-- The `clusterDecision` trace. -/
structure ClusterDecision where
  decidedBy : String
  bestMatch : Option String
  bestScore : Option ℚ
deriving DecidableEq

/-- The outcome of the decision block: the final mood, the new-family flag and
the decision trace. -/
structure DecisionOutcome where
  finalMood : String
  isNewFamily : Bool
  decision : ClusterDecision
deriving DecidableEq

/-- JavaScript `x || null` on a nullable string: an empty string becomes null. -/
def jsOrNullStr (s : Option String) : Option String :=
  match s with
  | some v => if v = "" then none else some v
  | none => none

/-- JavaScript `x || null` on a nullable number: 0 becomes null. -/
def jsOrNullQ (q : Option ℚ) : Option ℚ :=
  match q with
  | some v => if v = 0 then none else some v
  | none => none

/-- Stable insertion (descending by score) for scored families, modelling the
engine's stable `.sort((a, b) => b.score - a.score)`. -/
def insertScoredDesc (x : ScoredFamily) : List ScoredFamily → List ScoredFamily
  | [] => [x]
  | y :: ys => if y.score ≤ x.score then x :: y :: ys else y :: insertScoredDesc x ys

/-- Stable sort of scored families, descending by score. -/
def sortScoredDesc (ls : List ScoredFamily) : List ScoredFamily :=
  ls.foldr insertScoredDesc []

/-- Score the candidate against every family profile and sort descending
(`familyStats.map(...).sort(...)`). -/
def scoredFamiliesOf (embedSim : List ℚ → List ℚ → ℚ)
    (candidate : Candidate) (families : List FamilyProfile) : List ScoredFamily :=
  sortScoredDesc (families.map fun f =>
    let scored := scoreFamilyMatch embedSim candidate f
    ⟨f.mood, scored.score, scored.components.hasEmbedding⟩)

/-- The final `else` branch of the decision chain (`decidedBy: 'ai-override'`):
ask for an alternative name (`proposed`, `none` when the external call failed
or was denied), fall back to the suggested mood, and mark new when the result
is not an existing family. -/
def overrideDecision (existingFamilies : List String) (suggestedMood : String)
    (best : Option ScoredFamily) (proposed : Option String) : DecisionOutcome :=
  let finalMood := match proposed with
    | some m => if m = "" then suggestedMood else m
    | none => suggestedMood
  { finalMood := finalMood
    isNewFamily := !(existingFamilies.contains finalMood)
    decision := { decidedBy := "ai-override"
                  bestMatch := jsOrNullStr (best.map (·.mood))
                  bestScore := jsOrNullQ (best.map (·.score)) } }

/-- The decision chain after the similarity test failed: `ai-new`,
`ai-existing`, or the override. -/
def fallbackDecision (existingFamilies : List String) (suggestedMood : String)
    (best : Option ScoredFamily) (aiScore : Option ScoredFamily) (threshold : ℚ)
    (proposed : Option String) : DecisionOutcome :=
  if !(existingFamilies.contains suggestedMood) then
    { finalMood := suggestedMood
      isNewFamily := true
      decision := { decidedBy := "ai-new"
                    bestMatch := jsOrNullStr (best.map (·.mood))
                    bestScore := jsOrNullQ (best.map (·.score)) } }
  else
    match aiScore with
    | some a =>
      if threshold - 5/100 ≤ a.score then
        { finalMood := suggestedMood
          isNewFamily := false
          decision := { decidedBy := "ai-existing"
                        bestMatch := jsOrNullStr (best.map (·.mood))
                        bestScore := jsOrNullQ (best.map (·.score)) } }
      else overrideDecision existingFamilies suggestedMood best proposed
    | none => overrideDecision existingFamilies suggestedMood best proposed

/-- The classification decision block (lines 676-702): score every existing
family, then decide `similarity` / `ai-new` / `ai-existing` / `ai-override`.
Runs only when the analysis succeeded (not offline) and at least one family
exists. -/
def decideClassification (embedSim : List ℚ → List ℚ → ℚ)
    (existingFamilies : List String) (families : List FamilyProfile)
    (candidate : Candidate) (suggestedMood : String)
    (proposed : Option String) : DecisionOutcome :=
  let scoredFamilies := scoredFamiliesOf embedSim candidate families
  let best := scoredFamilies.head?
  let second := scoredFamilies[1]?
  let aiScore := scoredFamilies.find? fun entry => entry.mood == suggestedMood
  let hasEmbedding := isValidEmbedding candidate.embedding &&
    (match best with | some b => b.hasEmbedding | none => false)
  let threshold : ℚ := if hasEmbedding then 62/100 else 52/100
  let strongThreshold : ℚ := if hasEmbedding then 72/100 else 6/10
  let margin : ℚ := 8/100
  let bestMargin : ℚ := match best with
    | some b => b.score - (match second with | some s => s.score | none => 0)
    | none => 0
  match best with
  | some b =>
    if threshold ≤ b.score ∧ (margin ≤ bestMargin ∨ strongThreshold ≤ b.score) then
      { finalMood := b.mood
        isNewFamily := false
        decision := { decidedBy := "similarity", bestMatch := some b.mood,
                      bestScore := some b.score } }
    else fallbackDecision existingFamilies suggestedMood best aiScore threshold proposed
  | none => fallbackDecision existingFamilies suggestedMood best aiScore threshold proposed

/-! ### Cluster label resolver (client/src/App.jsx, normalizeMood / buildClusterMap) -/

/-- `normalizeMood(mood)` from client/src/App.jsx: a missing, non-string or
blank mood becomes `"Fragment"`, otherwise the trimmed mood. -/
def normalizeMood (mood : Option String) : String :=
  match mood with
  | none => "Fragment"
  | some s => if jsTrim s = "" then "Fragment" else jsTrim s

/-- A memory as consumed by `buildClusterMap` (`_id` may be missing). -/
structure VMemory where
  _id : Option String
  mood : Option String
deriving DecidableEq

/-- A link as consumed by `buildClusterMap`; a missing endpoint id is modelled
as the (falsy) empty string. -/
structure VLink where
  fromId : String
  toId : String
deriving DecidableEq

/-- The id of a memory, with missing ids collapsed to the falsy `""`. -/
def idOf (m : VMemory) : String := m._id.getD ""

/-- The `parent` map of the union-find structure: an insertion-ordered map
from id to parent id. -/
abbrev Parent := List (String × String)

/-- `Map.prototype.get`. -/
def pget (p : Parent) (k : String) : Option String :=
  ((p.find? fun e => e.1 == k).map (·.2))

/-- `Map.prototype.set` (overwrite the existing entry, else append). -/
def pset (p : Parent) (k v : String) : Parent :=
  match p with
  | [] => [(k, v)]
  | e :: rest => if e.1 = k then (k, v) :: rest else e :: pset rest k v

/-- `Map.prototype.has`. -/
def hasKey (p : Parent) (k : String) : Bool := (pget p k).isSome

/-- The root-chasing loop of `find`: follow parent pointers until a fixpoint.
Fuel-bounded; `buildClusterMap` passes fuel exceeding every chain length (the
JavaScript loop terminates because the parent map is a forest by
construction). -/
def rootLoop : ℕ → Parent → String → String
  | 0, _, x => x
  | fuel + 1, p, x =>
    match pget p x with
    | some y => if y = x then x else rootLoop fuel p y
    | none => x

/-- The path-compression loop of `find`: point every node on the chain from
`cur` directly at `root` (reading each next pointer before overwriting it). -/
def compressPath : ℕ → Parent → String → String → Parent
  | 0, p, _, _ => p
  | fuel + 1, p, cur, root =>
    if cur = root then p
    else
      match pget p cur with
      | some nxt => compressPath fuel (pset p cur root) nxt root
      | none => p

/-- The `find` closure of `buildClusterMap`: an id not in the map is returned
unchanged; otherwise chase to the root and compress the path. -/
def findC (fuel : ℕ) (p : Parent) (id : String) : String × Parent :=
  match pget p id with
  | none => (id, p)
  | some r0 =>
    if r0 = "" then (id, p)
    else
      let root := rootLoop fuel p r0
      (root, compressPath fuel p id root)

/-- The `union` closure of `buildClusterMap`: a no-op unless both endpoints
are keys; otherwise graft `b`'s root under `a`'s root. -/
def unionIds (fuel : ℕ) (p : Parent) (a b : String) : Parent :=
  if hasKey p a && hasKey p b then
    let fa := findC fuel p a
    let fb := findC fuel fa.2 b
    if fa.1 ≠ fb.1 then pset fb.2 fb.1 fa.1 else fb.2
  else p

/-- Phase 1 of `buildClusterMap`: seed the parent map with every truthy id. -/
def initParent (mems : List VMemory) : Parent :=
  mems.foldl (fun p m => if idOf m ≠ "" then pset p (idOf m) (idOf m) else p) []

/-- Phase 2 of `buildClusterMap`: union the endpoints of every link whose two
endpoint ids are truthy. -/
def unionPhase (fuel : ℕ) (links : List VLink) (p : Parent) : Parent :=
  links.foldl (fun p l =>
    if l.fromId ≠ "" ∧ l.toId ≠ "" then unionIds fuel p l.fromId l.toId else p) p

/-- An insertion-ordered tally: root id to insertion-ordered mood counts. -/
abbrev Tally := List (String × List (String × ℕ))

/-- Increment a mood's count in an insertion-ordered count map. -/
def bumpCount (counts : List (String × ℕ)) (mood : String) : List (String × ℕ) :=
  match counts with
  | [] => [(mood, 1)]
  | e :: rest => if e.1 = mood then (e.1, e.2 + 1) :: rest else e :: bumpCount rest mood

/-- Record one member's mood under its root in the tally. -/
def upsertTally (t : Tally) (root mood : String) : Tally :=
  match t with
  | [] => [(root, [(mood, 1)])]
  | e :: rest =>
    if e.1 = root then (e.1, bumpCount e.2 mood) :: rest else e :: upsertTally rest root mood

/-- `moodCounts.get(root)`. -/
def lookupTally (t : Tally) (root : String) : Option (List (String × ℕ)) :=
  ((t.find? fun e => e.1 == root).map (·.2))

/-- One step of phase 3: `find` the memory's root (mutating the parent map)
and count its mood under that root. -/
def tallyStep (fuel : ℕ) (acc : Parent × Tally) (m : VMemory) : Parent × Tally :=
  if idOf m ≠ "" then
    ((findC fuel acc.1 (idOf m)).2,
     upsertTally acc.2 (findC fuel acc.1 (idOf m)).1 (normalizeMood m.mood))
  else acc

/-- Phase 3 of `buildClusterMap`: per-root mood tally, threading the parent map
through the `find` calls. -/
def tallyPhase (fuel : ℕ) (mems : List VMemory) (p : Parent) : Parent × Tally :=
  mems.foldl (tallyStep fuel) (p, [])

/-- The tally scan of phase 4: starting from `topCount = -1`, keep the first
mood whose count strictly exceeds the running maximum (insertion order, so
ties go to the first-encountered mood). -/
def pickTop (counts : List (String × ℕ)) : Option String :=
  (counts.foldl
    (fun acc e => if acc.2 < (e.2 : ℤ) then (some e.1, (e.2 : ℤ)) else acc)
    ((none : Option String), (-1 : ℤ))).1

/-- One step of phase 4: `find` the memory's root (the mutation persists even
when the root has no tally entry, as in the source) and record the top mood of
its root's tally, falling back to the memory's own normalized mood. -/
def labelStep (fuel : ℕ) (t : Tally) (acc : Parent × List (String × String))
    (m : VMemory) : Parent × List (String × String) :=
  if idOf m ≠ "" then
    match lookupTally t (findC fuel acc.1 (idOf m)).1 with
    | some counts =>
      ((findC fuel acc.1 (idOf m)).2,
       pset acc.2 (idOf m)
         (match pickTop counts with
          | some topMood => if topMood = "" then normalizeMood m.mood else topMood
          | none => normalizeMood m.mood))
    | none => ((findC fuel acc.1 (idOf m)).2, acc.2)
  else acc

/-- Phase 4 of `buildClusterMap`: assign each memory the top mood of its
root's tally. -/
def labelPhase (fuel : ℕ) (mems : List VMemory) (p : Parent) (t : Tally) :
    Parent × List (String × String) :=
  mems.foldl (labelStep fuel t) (p, [])

/-- `buildClusterMap(memories, links)` from client/src/App.jsx, returning the
`clusterLabelById` map.  The fuel exceeds every parent-chain length that can
arise (chains only grow by one per union). -/
def buildClusterMap (mems : List VMemory) (links : List VLink) : List (String × String) :=
  let fuel := mems.length + links.length + 1
  let p1 := unionPhase fuel links (initParent mems)
  let t := tallyPhase fuel mems p1
  (labelPhase fuel mems t.1 t.2).2

/-! #### Specification-side description of the resolver -/

/-- The truthy ids of the listed memories: the key set of the parent map. -/
def memIds (mems : List VMemory) : List String :=
  (mems.map idOf).filter (· ≠ "")

/-- Merge the class of `b` into the class of `a`: the spec-side effect of one
union. -/
def mergeRoot (ρ : String → String) (a b : String) : String → String :=
  fun x => if ρ x = ρ b then ρ a else ρ x

/-- One spec-side union step: links with a non-listed endpoint change
nothing. -/
def specRootsStep (ids : List String) (ρ : String → String) (l : VLink) : String → String :=
  if l.fromId ∈ ids ∧ l.toId ∈ ids then mergeRoot ρ l.fromId l.toId else ρ

/-- The component representative of every id after unioning the endpoints of
every link, as a pure fold. -/
def specRoots (ids : List String) (links : List VLink) : String → String :=
  links.foldl (specRootsStep ids) (fun x => x)

/-- Insertion-ordered mood counts of a list of moods (first-encountered order
is insertion order). -/
def countsOf (moods : List String) : List (String × ℕ) :=
  moods.foldl bumpCount []

/-- The normalized moods of the memories in the same component as id `x`, in
list order. -/
def componentMoods (mems : List VMemory) (links : List VLink) (x : String) : List String :=
  ((mems.filter fun m =>
      idOf m ≠ "" && (specRoots (memIds mems) links (idOf m) == specRoots (memIds mems) links x)).map
    fun m => normalizeMood m.mood)

/-- The label the resolver owes a memory: the majority mood of its component,
ties broken by first-encountered order during the tally, falling back to the
memory's own normalized mood. -/
def specLabel (mems : List VMemory) (links : List VLink) (m : VMemory) : String :=
  match pickTop (countsOf (componentMoods mems links (idOf m))) with
  | some topMood => if topMood = "" then normalizeMood m.mood else topMood
  | none => normalizeMood m.mood

/-! ## Theorems -/

/-! ### C3: the offline path's tags versus the sweep's selection predicate -/

/-- C3: FALSIFYING EVALUATION.  Every memory classified through the offline
fallback stores the tags `["Offline", "Auto-classified"]` (capitalised), but
the background sweep selects memories whose tags contain the exact string
`'offline'` — which these tags never do.  Degraded memories are therefore
never selectable by the sweep, contradicting the claim (and the code's own
comments). -/
theorem offline_memories_not_selected_by_sweep (k : ℕ) :
    (normalizeAnalysis (getOfflineMood k)).tags = ["Offline", "Auto-classified"] ∧
    sweepSelects (normalizeAnalysis (getOfflineMood k)).tags = false := by
  exact ⟨rfl, rfl⟩

/-! ### C5: theme-vector normalization invariants -/

/-- The per-axis invariant claimed by the spec: non-empty, at most 4 entries,
weights summing to 1 within 1e-9. -/
def axisOk (axis : List CEntry) : Prop :=
  axis ≠ [] ∧ axis.length ≤ 4 ∧ |((axis.map (·.weight)).sum) - 1| ≤ 1/1000000000

theorem normalizeAxis_ok (entries : Option (List RawEntry)) (fb : String) :
    axisOk (normalizeAxis entries fb) := by
  cases entries with
  | none =>
    refine ⟨by simp [normalizeAxis], by simp [normalizeAxis], ?_⟩
    simp [normalizeAxis]
  | some es =>
    simp only [normalizeAxis]
    cases h : (((es.filterMap cleanEntry).take 4).isEmpty ||
        decide ((((es.filterMap cleanEntry).take 4).map (·.weight)).sum ≤ 0)) with
    | true =>
      simp only [h]
      exact ⟨by simp, by simp, by simp⟩
    | false =>
      rw [if_neg (by decide)]
      rw [Bool.or_eq_false_iff] at h
      obtain ⟨h1, h2⟩ := h
      have hne : (es.filterMap cleanEntry).take 4 ≠ [] := by
        simpa [List.isEmpty_iff] using h1
      have hpos : 0 < (((es.filterMap cleanEntry).take 4).map (·.weight)).sum := by
        have := of_decide_eq_false h2
        linarith [not_le.mp this]
      refine ⟨by simp only [ne_eq]; exact fun hx => hne (by simpa using hx), ?_, ?_⟩
      · simp only [List.length_map]; exact List.length_take_le 4 (es.filterMap cleanEntry)
      · have hsum : ((((es.filterMap cleanEntry).take 4).map
            (fun it => (⟨it.label, it.weight / (((es.filterMap cleanEntry).take 4).map (·.weight)).sum⟩ : CEntry))).map (·.weight)).sum
            = 1 := by
          rw [List.map_map]
          simp only [Function.comp_def, div_eq_mul_inv]
          rw [List.sum_map_mul_right]
          exact mul_inv_cancel₀ (ne_of_gt hpos)
        rw [hsum]
        simp

theorem normalizeAxis_fallback (entries : Option (List RawEntry)) (fb : String)
    (h : cleanedEntries entries = []) : normalizeAxis entries fb = [⟨fb, 1⟩] := by
  cases entries with
  | none => rfl
  | some es =>
    simp only [cleanedEntries] at h
    simp [normalizeAxis, h]

/-- C5: every axis produced by the theme-vector normalization routine is
non-empty, has at most 4 entries, and has weights summing to 1.0 within 1e-9;
and whenever no labels survive cleaning, the axis is exactly the fallback
label with weight 1. -/
theorem theme_vector_normalization_invariants (tv : Option RawThemeVector) :
    axisOk (normalizeThemeVector tv).emotionalCore ∧
    axisOk (normalizeThemeVector tv).narrativeState ∧
    axisOk (normalizeThemeVector tv).relationalFocus ∧
    axisOk (normalizeThemeVector tv).temporalOrientation ∧
    axisOk (normalizeThemeVector tv).spatialIntimacy ∧
    ∀ (entries : Option (List RawEntry)) (fb : String),
      cleanedEntries entries = [] → normalizeAxis entries fb = [⟨fb, 1⟩] := by
  refine ⟨normalizeAxis_ok _ _, normalizeAxis_ok _ _, normalizeAxis_ok _ _,
    normalizeAxis_ok _ _, normalizeAxis_ok _ _, fun entries fb h => normalizeAxis_fallback entries fb h⟩

/-- C5 witness: the invariants at concrete inputs, with the fallback clause
discharged at a non-array axis. -/
theorem theme_vector_normalization_invariants_witness :
    axisOk (normalizeThemeVector (some offlineThemeVector)).emotionalCore ∧
    normalizeAxis none "memory" = [⟨"memory", 1⟩] :=
  ⟨(theme_vector_normalization_invariants (some offlineThemeVector)).1,
   (theme_vector_normalization_invariants none).2.2.2.2.2 none "memory" rfl⟩

/-! ### C4: the tags stored at ingestion versus the TagSet shape -/

/-- C4: COUNTEREXAMPLE.  On the default-path analysis the stored tags are
`["Raw", "Unsorted"]`; `"Raw"` is not lower-cased, so the stored tags do not
form a TagSet in the data model's sense. -/
theorem stored_tags_not_lowercased :
    "Raw" ∈ (normalizeAnalysis ⟨none, none, none, none, none, none, none⟩).tags ∧
    jsToLower "Raw" ≠ "Raw" := by
  constructor
  · simp [normalizeAnalysis]
  · decide

/-- C4 (amended): the tags stored on a created Memory are at most 5 (hence at
most 12) non-empty strings taken verbatim from the analysis's tags (or the
fallback `["Raw", "Unsorted"]`); the TagSet normalization (lower-casing,
trimming, the 12-cap) is applied only by `normalizeTags` at matching time. -/
theorem stored_tags_amended (a : Analysis) :
    (normalizeAnalysis a).tags.length ≤ 5 ∧
    (∀ t ∈ (normalizeAnalysis a).tags,
      t ≠ "" ∧ (t ∈ a.tags.getD [] ∨ t ∈ ["Raw", "Unsorted"])) ∧
    (∀ tags, (normalizeTags tags).length ≤ 12 ∧ ∀ t ∈ normalizeTags tags, t ≠ "") := by
  refine ⟨?_, ?_, ?_⟩
  · cases h : a.tags with
    | none => simp [normalizeAnalysis, h]
    | some l =>
      simp only [normalizeAnalysis, h]
      exact List.length_take_le 5 (l.filter (fun t => t ≠ ""))
  · intro t ht
    cases h : a.tags with
    | none =>
      simp [normalizeAnalysis, h] at ht
      rcases ht with rfl | rfl
      · exact ⟨by decide, Or.inr (by simp)⟩
      · exact ⟨by decide, Or.inr (by simp)⟩
    | some l =>
      simp only [normalizeAnalysis, h] at ht
      have ht2 := List.mem_of_mem_take ht
      have := List.mem_filter.mp ht2
      refine ⟨by simpa using this.2, Or.inl ?_⟩
      simpa [h] using this.1
  · intro tags
    cases tags with
    | none => simp [normalizeTags]
    | some l =>
      refine ⟨by simp only [normalizeTags]; exact List.length_take_le 12 _, ?_⟩
      intro t ht
      simp only [normalizeTags] at ht
      have := List.mem_filter.mp (List.mem_of_mem_take ht)
      simpa using this.2

/-- C4 witness: the amended properties evaluated on the offline analysis. -/
theorem stored_tags_amended_witness :
    "Offline" ∈ (normalizeAnalysis (getOfflineMood 0)).tags ∧
    ("Offline" ≠ "" ∧
      ("Offline" ∈ (getOfflineMood 0).tags.getD [] ∨ "Offline" ∈ ["Raw", "Unsorted"])) := by
  refine ⟨by simp [normalizeAnalysis, getOfflineMood, OFFLINE_MOODS], ?_⟩
  exact (stored_tags_amended (getOfflineMood 0)).2.1 "Offline"
    (by simp [normalizeAnalysis, getOfflineMood, OFFLINE_MOODS])

/-! ### C7: the capability-budget gate -/

theorem runRateCalls_replicate (t r : ℕ) (ht : t < r) :
    ∀ (k c : ℕ), c + k ≤ 14 →
      runRateCalls (List.replicate k t) ⟨c, r⟩ = (List.replicate k true, ⟨c + k, r⟩) := by
  intro k
  induction k with
  | zero => intro c _; simp [runRateCalls]
  | succ n ih =>
    intro c hc
    have hcr : ¬ r ≤ t := not_le.mpr ht
    have hcount : ¬ 14 ≤ c := by omega
    simp only [List.replicate_succ, runRateCalls, checkRateLimit, hcr, if_false, hcount]
    rw [ih (c + 1) (by omega)]
    have harith : c + 1 + n = c + (n + 1) := by omega
    rw [harith]

/-- C7: starting from a fresh window, the first 14 acquire calls inside the
window are allowed, the 15th call in the same window is denied, and the next
call at or after the window's reset time is allowed again (with the counter
restarted). -/
theorem rate_gate_quota (t r t2 : ℕ) (h1 : t < r) (h2 : r ≤ t2) :
    runRateCalls (List.replicate 14 t ++ [t, t2]) ⟨0, r⟩ =
      (List.replicate 14 true ++ [false, true], ⟨1, t2 + 60000⟩) := by
  have hfirst := runRateCalls_replicate t r h1 14 0 (by omega)
  have happ : ∀ (xs ys : List ℕ) (s : RateState),
      runRateCalls (xs ++ ys) s =
        ((runRateCalls xs s).1 ++ (runRateCalls ys (runRateCalls xs s).2).1,
         (runRateCalls ys (runRateCalls xs s).2).2) := by
    intro xs
    induction xs with
    | nil => intro ys s; simp [runRateCalls]
    | cons x xs ih => intro ys s; simp [runRateCalls, ih]
  rw [happ, hfirst]
  have hcr : ¬ r ≤ t := not_le.mpr h1
  simp [runRateCalls, checkRateLimit, hcr, h2]

/-- C7 witness: the gate evaluated at the concrete window of the code
(quota 14, 60-second window). -/
theorem rate_gate_quota_witness :
    runRateCalls (List.replicate 14 0 ++ [0, 60000]) ⟨0, 60000⟩ =
      (List.replicate 14 true ++ [false, true], ⟨1, 120000⟩) :=
  rate_gate_quota 0 60000 60000 (by omega) (by omega)

/-! ### C2: the same-mood low-weight family link -/

/-- A concrete pair with the same non-empty mood and no other shared signal
(`"Calm"` matches no contradiction substring). -/
def cexA : LMemory := ⟨"a1", "Calm", [], []⟩

/-- The partner memory of `cexA`. -/
def cexB : LMemory := ⟨"b1", "Calm", [], []⟩

/-- On a pair with the same non-empty mood (case-insensitively) and no other
shared signal, the pair scorer emits the same-mood link with score 2. -/
lemma scorePair_same_mood (a b : LMemory)
    (hmood : jsToLower a.mood ≠ "")
    (heq : jsToLower a.mood = jsToLower b.mood)
    (hcontra : moodsContradict (jsToLower a.mood) (jsToLower b.mood) = false)
    (hcore : sharedCoreLabels a b = [])
    (htags : sharedTagList a b = [])
    (habs : (hasAbsenceTag a && hasAbsenceTag b) = false) :
    scorePair a b =
      some { id := "idea:" ++ a._id ++ "-" ++ b._id, fromId := a._id, toId := b._id,
             type := "family", score := 2, reason := "shared mood" } := by
  have hbm : jsToLower b.mood ≠ "" := by rw [← heq]; exact hmood
  rw [heq] at hcontra
  simp only [scorePair, hcore, htags, habs, heq]
  simp [hcontra, hbm]

/-- `buildIdeaLinks` on a two-memory window is the emitted link of the single
pair. -/
lemma buildIdeaLinks_pair (a b : LMemory) (l : IdeaLink)
    (h : scorePair a b = some l) : buildIdeaLinks [a, b] = [l] := by
  simp [buildIdeaLinks, allPairs, h, sortByScoreDesc, insertByScoreDesc]

/-- C2: COUNTEREXAMPLE.  On two memories sharing mood `"Calm"` and nothing
else, `buildIdeaLinks` emits exactly one link of type `family` — but with
score 2 (reason `"shared mood"`), not score 1: the same-mood bonus alone
already reaches the emission threshold, so the score-1 `"shared family"`
special case never fires. -/
theorem same_mood_pair_not_score_one :
    (buildIdeaLinks [cexA, cexB]).map (fun l => (l.type, l.score, l.reason)) =
      [("family", 2, "shared mood")] ∧
    ∀ l ∈ buildIdeaLinks [cexA, cexB], ¬(l.type = "family" ∧ l.score = 1) := by
  have h := buildIdeaLinks_pair cexA cexB _
    (scorePair_same_mood cexA cexB (by decide) (by decide) (by decide)
      (by decide) (by decide) (by decide))
  rw [h]
  refine ⟨rfl, ?_⟩
  intro l hl
  rw [List.mem_singleton] at hl
  subst hl
  intro hcontra
  have : (2 : ℚ) = 1 := hcontra.2
  norm_num at this

/-- C2 (amended): for two memories with the same non-empty mood
(case-insensitively) and no other shared signal, `buildIdeaLinks` on that pair
includes exactly one link between them, of type `family` with score 2 and
reason `"shared mood"` (the same-mood bonus alone). -/
theorem same_mood_pair_family_link (a b : LMemory)
    (hmood : jsToLower a.mood ≠ "")
    (heq : jsToLower a.mood = jsToLower b.mood)
    (hcontra : moodsContradict (jsToLower a.mood) (jsToLower b.mood) = false)
    (hcore : sharedCoreLabels a b = [])
    (htags : sharedTagList a b = [])
    (habs : (hasAbsenceTag a && hasAbsenceTag b) = false) :
    buildIdeaLinks [a, b] =
      [{ id := "idea:" ++ a._id ++ "-" ++ b._id, fromId := a._id, toId := b._id,
         type := "family", score := 2, reason := "shared mood" }] :=
  buildIdeaLinks_pair a b _ (scorePair_same_mood a b hmood heq hcontra hcore htags habs)

/-- C2 witness: the amended statement applied to the concrete pair. -/
theorem same_mood_pair_family_link_witness :
    buildIdeaLinks [cexA, cexB] =
      [{ id := "idea:a1-b1", fromId := "a1", toId := "b1",
         type := "family", score := 2, reason := "shared mood" }] :=
  same_mood_pair_family_link cexA cexB (by decide) (by decide) (by decide)
    (by decide) (by decide) (by decide)

/-! ### C6: the family-match score is a weighted mean in [0, 1] -/

/-- C6: for sub-scores in [0, 1], `scoreFamilyMatch` returns a score in
[0, 1], equal to the weighted mean with weights {0.60, 0.25, 0.15} when the
comparison is embedding-backed and {0, 0.65, 0.35} otherwise. -/
theorem scoreFamilyMatch_weighted_mean (embedSim : List ℚ → List ℚ → ℚ)
    (c : Candidate) (f : FamilyProfile)
    (he0 : 0 ≤ (scoreFamilyMatch embedSim c f).components.embeddingScore)
    (he1 : (scoreFamilyMatch embedSim c f).components.embeddingScore ≤ 1)
    (ht0 : 0 ≤ (scoreFamilyMatch embedSim c f).components.themeScore)
    (ht1 : (scoreFamilyMatch embedSim c f).components.themeScore ≤ 1)
    (hg0 : 0 ≤ (scoreFamilyMatch embedSim c f).components.tagScore)
    (hg1 : (scoreFamilyMatch embedSim c f).components.tagScore ≤ 1) :
    0 ≤ (scoreFamilyMatch embedSim c f).score ∧
    (scoreFamilyMatch embedSim c f).score ≤ 1 ∧
    (scoreFamilyMatch embedSim c f).score =
      (if (scoreFamilyMatch embedSim c f).components.hasEmbedding then
        ((scoreFamilyMatch embedSim c f).components.embeddingScore * (60/100) +
         (scoreFamilyMatch embedSim c f).components.themeScore * (25/100) +
         (scoreFamilyMatch embedSim c f).components.tagScore * (15/100)) /
          (60/100 + 25/100 + 15/100)
      else
        ((scoreFamilyMatch embedSim c f).components.embeddingScore * 0 +
         (scoreFamilyMatch embedSim c f).components.themeScore * (65/100) +
         (scoreFamilyMatch embedSim c f).components.tagScore * (35/100)) /
          (0 + 65/100 + 35/100)) := by
  cases h : (isValidEmbedding c.embedding && isValidEmbeddingOpt f.embedding) with
  | true =>
    simp only [scoreFamilyMatch, h] at he0 he1 ht0 ht1 hg0 hg1 ⊢
    norm_num at he0 he1 ht0 ht1 hg0 hg1 ⊢
    exact ⟨by positivity, by linarith⟩
  | false =>
    simp only [scoreFamilyMatch, h] at he0 he1 ht0 ht1 hg0 hg1 ⊢
    norm_num at ht0 ht1 hg0 hg1 ⊢
    exact ⟨by positivity, by linarith⟩

/-- A concrete candidate for the C6 witness (no usable embedding, empty
axes and tags, so every sub-score evaluates to 0). -/
def cex6c : Candidate := ⟨[], ⟨[], [], [], [], []⟩, []⟩

/-- A concrete family profile for the C6 witness. -/
def cex6f : FamilyProfile := ⟨"F", none, ⟨[], [], [], [], []⟩, []⟩

/-- C6 witness: the weighted mean evaluated at a concrete candidate and
family. -/
theorem scoreFamilyMatch_weighted_mean_witness :
    0 ≤ (scoreFamilyMatch (fun _ _ => 1/2) cex6c cex6f).score ∧
    (scoreFamilyMatch (fun _ _ => 1/2) cex6c cex6f).score ≤ 1 := by
  have h := scoreFamilyMatch_weighted_mean (fun _ _ => 1/2) cex6c cex6f
    (by simp [cex6c, cex6f, scoreFamilyMatch, isValidEmbedding, isValidEmbeddingOpt])
    (by simp [cex6c, cex6f, scoreFamilyMatch, isValidEmbedding, isValidEmbeddingOpt])
    (by simp [cex6c, cex6f, scoreFamilyMatch, themeSimilarity, axisSimilarity, axisToMap])
    (by simp [cex6c, cex6f, scoreFamilyMatch, themeSimilarity, axisSimilarity, axisToMap])
    (by simp [cex6c, cex6f, scoreFamilyMatch, tagSimilarity, normalizeTags, jsSetDedup])
    (by simp [cex6c, cex6f, scoreFamilyMatch, tagSimilarity, normalizeTags, jsSetDedup])
  exact ⟨h.1, h.2.1⟩

/-! ### C9: the embedding failure sentinel and its downstream effect -/

/-- C9: a budget-denied or failed embedding call returns the sentinel
`[0, 0, 0]`; the sentinel is never usable (length below 8), so every family
match for such a candidate is scored with the no-embedding weight set
{0, 0.65, 0.35} and the embedding term excluded. -/
theorem embed_failure_sentinel (allowed : Bool) (api : EmbedApiResult)
    (hfail : allowed = false ∨ ∀ v, api = .values v → isValidEmbedding v = false) :
    embedText allowed api = [0, 0, 0] ∧
    isValidEmbedding (embedText allowed api) = false ∧
    ∀ (embedSim : List ℚ → List ℚ → ℚ) (tv : ThemeVector) (tags : List String)
      (f : FamilyProfile),
      (scoreFamilyMatch embedSim ⟨embedText allowed api, tv, tags⟩ f).components.hasEmbedding
        = false ∧
      (scoreFamilyMatch embedSim ⟨embedText allowed api, tv, tags⟩ f).components.embeddingScore
        = 0 ∧
      (scoreFamilyMatch embedSim ⟨embedText allowed api, tv, tags⟩ f).score =
        themeSimilarity tv f.themeVector * (65/100) + tagSimilarity tags f.tags * (35/100) := by
  have hsent : embedText allowed api = [0, 0, 0] := by
    rcases hfail with rfl | hv
    · rfl
    · cases api with
      | values v =>
        simp only [embedText]
        cases allowed with
        | false => rfl
        | true => simp [hv v rfl]
      | missing => cases allowed <;> rfl
      | quotaError => cases allowed <;> rfl
      | otherError => cases allowed <;> rfl
  have hinvalid : isValidEmbedding (embedText allowed api) = false := by
    rw [hsent]; rfl
  refine ⟨hsent, hinvalid, ?_⟩
  intro embedSim tv tags f
  have hno : (isValidEmbedding (embedText allowed api) && isValidEmbeddingOpt f.embedding)
      = false := by rw [hinvalid]; rfl
  refine ⟨by simp only [scoreFamilyMatch]; rw [hno], ?_, ?_⟩
  · simp only [scoreFamilyMatch]; rw [hno]; simp
  · simp only [scoreFamilyMatch]
    rw [hno]
    norm_num

/-- C9 witness: the sentinel and its downstream scoring at concrete inputs. -/
theorem embed_failure_sentinel_witness :
    embedText false (.values [1, 1, 1, 1, 1, 1, 1, 1]) = [0, 0, 0] ∧
    isValidEmbedding (embedText false (.values [1, 1, 1, 1, 1, 1, 1, 1])) = false :=
  have h := embed_failure_sentinel false (.values [1, 1, 1, 1, 1, 1, 1, 1]) (Or.inl rfl)
  ⟨h.1, h.2.1⟩

/-! ### C1: the ordered classification decision policy -/

lemma insertScoredDesc_mem (x : ScoredFamily) (l : List ScoredFamily) (y : ScoredFamily) :
    y ∈ insertScoredDesc x l ↔ y = x ∨ y ∈ l := by
  induction l with
  | nil => simp [insertScoredDesc]
  | cons z zs ih =>
    simp only [insertScoredDesc]
    by_cases hc : z.score ≤ x.score
    · rw [if_pos hc]
      simp [List.mem_cons]
    · rw [if_neg hc]
      simp only [List.mem_cons, ih]
      tauto

lemma insertScoredDesc_sorted (x : ScoredFamily) (l : List ScoredFamily)
    (h : l.Sorted fun u v => v.score ≤ u.score) :
    (insertScoredDesc x l).Sorted fun u v => v.score ≤ u.score := by
  induction l with
  | nil => simp [insertScoredDesc]
  | cons y ys ih =>
    simp only [insertScoredDesc]
    obtain ⟨hy, hys⟩ := List.sorted_cons.mp h
    by_cases hc : y.score ≤ x.score
    · rw [if_pos hc]
      refine List.sorted_cons.mpr ⟨?_, h⟩
      intro z hz
      rcases List.mem_cons.mp hz with rfl | hz2
      · exact hc
      · exact le_trans (hy z hz2) hc
    · rw [if_neg hc]
      refine List.sorted_cons.mpr ⟨?_, ih hys⟩
      intro z hz
      rcases (insertScoredDesc_mem x ys z).mp hz with rfl | hz2
      · exact le_of_not_le hc
      · exact hy z hz2

lemma sortScoredDesc_sorted (l : List ScoredFamily) :
    (sortScoredDesc l).Sorted fun u v => v.score ≤ u.score := by
  induction l with
  | nil => simp [sortScoredDesc]
  | cons x xs ih => exact insertScoredDesc_sorted x (sortScoredDesc xs) ih

/-- The head of the sorted scored-family list carries a maximal score. -/
lemma sortScoredDesc_head_ge (l : List ScoredFamily) (b : ScoredFamily)
    (hb : (sortScoredDesc l).head? = some b) :
    ∀ s ∈ sortScoredDesc l, s.score ≤ b.score := by
  have hs := sortScoredDesc_sorted l
  cases hl : sortScoredDesc l with
  | nil => rw [hl] at hb; exact absurd hb (by simp)
  | cons y ys =>
    rw [hl] at hb hs
    have hy : y = b := by simpa using hb
    subst hy
    intro s hsmem
    rcases List.mem_cons.mp hsmem with rfl | h2
    · exact le_refl _
    · exact (List.sorted_cons.mp hs).1 s h2

lemma fallback_ai_new (ef : List String) (sm : String) (best ai : Option ScoredFamily)
    (thr : ℚ) (prop : Option String) (h : sm ∉ ef) :
    fallbackDecision ef sm best ai thr prop =
      ⟨sm, true, ⟨"ai-new", jsOrNullStr (best.map (·.mood)), jsOrNullQ (best.map (·.score))⟩⟩ := by
  simp [fallbackDecision, h]

lemma fallback_ai_existing (ef : List String) (sm : String) (best : Option ScoredFamily)
    (a : ScoredFamily) (thr : ℚ) (prop : Option String) (h : sm ∈ ef)
    (hs : thr - 5/100 ≤ a.score) :
    fallbackDecision ef sm best (some a) thr prop =
      ⟨sm, false, ⟨"ai-existing", jsOrNullStr (best.map (·.mood)), jsOrNullQ (best.map (·.score))⟩⟩ := by
  have hs2 : thr ≤ a.score + 5/100 := by linarith
  simp [fallbackDecision, h, hs2]

lemma fallback_override_none (ef : List String) (sm : String) (best : Option ScoredFamily)
    (thr : ℚ) (prop : Option String) (h : sm ∈ ef) :
    fallbackDecision ef sm best none thr prop = overrideDecision ef sm best prop := by
  simp [fallbackDecision, h]

lemma fallback_override_low (ef : List String) (sm : String) (best : Option ScoredFamily)
    (a : ScoredFamily) (thr : ℚ) (prop : Option String) (h : sm ∈ ef)
    (hs : ¬(thr - 5/100 ≤ a.score)) :
    fallbackDecision ef sm best (some a) thr prop = overrideDecision ef sm best prop := by
  have hs2 : ¬ thr ≤ a.score + 5/100 := fun hx => hs (by linarith)
  simp [fallbackDecision, h, hs2]

lemma overrideDecision_spec (ef : List String) (sm : String) (best : Option ScoredFamily)
    (prop : Option String) (hmem : sm ∈ ef) :
    (∀ m, prop = some m → m ≠ "" →
      (overrideDecision ef sm best prop).finalMood = m ∧
      ((overrideDecision ef sm best prop).isNewFamily = true ↔ m ∉ ef)) ∧
    ((prop = none ∨ prop = some "") →
      (overrideDecision ef sm best prop).finalMood = sm ∧
      (overrideDecision ef sm best prop).isNewFamily = false) := by
  constructor
  · rintro m rfl hne
    constructor
    · simp [overrideDecision, hne]
    · simp [overrideDecision, hne]
  · rintro (rfl | rfl)
    · simp [overrideDecision, hmem]
    · simp [overrideDecision, hmem]

lemma scoredFamiliesOf_head_ge (embedSim : List ℚ → List ℚ → ℚ) (c : Candidate)
    (fams : List FamilyProfile) (b : ScoredFamily)
    (hb : (scoredFamiliesOf embedSim c fams).head? = some b) :
    ∀ s ∈ scoredFamiliesOf embedSim c fams, s.score ≤ b.score := by
  unfold scoredFamiliesOf at hb ⊢
  exact sortScoredDesc_head_ge _ b hb

lemma decideClassification_nil (embedSim : List ℚ → List ℚ → ℚ) (ef : List String)
    (fams : List FamilyProfile) (c : Candidate) (sm : String) (prop : Option String)
    (hl : scoredFamiliesOf embedSim c fams = []) :
    decideClassification embedSim ef fams c sm prop =
      fallbackDecision ef sm none none (52/100) prop := by
  simp [decideClassification, hl]

lemma decideClassification_cons (embedSim : List ℚ → List ℚ → ℚ) (ef : List String)
    (fams : List FamilyProfile) (c : Candidate) (sm : String) (prop : Option String)
    (b : ScoredFamily) (rest : List ScoredFamily)
    (hl : scoredFamiliesOf embedSim c fams = b :: rest) :
    decideClassification embedSim ef fams c sm prop =
      (if (if isValidEmbedding c.embedding && b.hasEmbedding then (62 : ℚ)/100 else 52/100) ≤ b.score ∧
          ((8 : ℚ)/100 ≤ b.score - (match rest[0]? with | some s => s.score | none => 0) ∨
           (if isValidEmbedding c.embedding && b.hasEmbedding then (72 : ℚ)/100 else 6/10) ≤ b.score)
       then ⟨b.mood, false, ⟨"similarity", some b.mood, some b.score⟩⟩
       else fallbackDecision ef sm (some b) ((b :: rest).find? fun e => e.mood == sm)
              (if isValidEmbedding c.embedding && b.hasEmbedding then 62/100 else 52/100) prop) := by
  simp [decideClassification, hl]

/-- C1: when the external analysis succeeded (not offline) and at least one
family exists, the classification decision follows exactly the ordered policy:
(a) reuse the top-scoring family (`similarity`) iff `best.score ≥ threshold`
and (margin ≥ 0.08 or `best.score ≥ strongThreshold`), with thresholds
0.62/0.72 when the winning comparison is embedding-backed and 0.52/0.60
otherwise; (b) else accept the suggested mood as new (`ai-new`) iff it is not
an existing family; (c) else keep the suggested existing mood (`ai-existing`)
iff its own score is ≥ threshold − 0.05; (d) else `ai-override`: use the
proposed name when non-empty (new iff not existing), falling back to the
suggested mood unmodified. -/
theorem classification_decision_policy
    (embedSim : List ℚ → List ℚ → ℚ) (existingFamilies : List String)
    (families : List FamilyProfile) (candidate : Candidate)
    (suggestedMood : String) (proposed : Option String)
    (_hfam : existingFamilies ≠ [])
    (scored : List ScoredFamily)
    (hscored : scored = scoredFamiliesOf embedSim candidate families)
    (best : Option ScoredFamily) (hbest : best = scored.head?)
    (runnerUp : ℚ)
    (hrun : runnerUp = match scored[1]? with | some s => s.score | none => 0)
    (hasEmb : Bool)
    (hemb : hasEmb = (isValidEmbedding candidate.embedding &&
        match best with | some b => b.hasEmbedding | none => false))
    (threshold strong : ℚ)
    (hthr : threshold = if hasEmb then 62/100 else 52/100)
    (hstrong : strong = if hasEmb then 72/100 else 6/10)
    (out : DecisionOutcome)
    (hout : out = decideClassification embedSim existingFamilies families candidate
        suggestedMood proposed) :
    (∀ b, best = some b → ∀ s ∈ scored, s.score ≤ b.score) ∧
    (out.decision.decidedBy = "similarity" ↔
      (∃ b, best = some b ∧ threshold ≤ b.score ∧
        ((8 : ℚ)/100 ≤ b.score - runnerUp ∨ strong ≤ b.score))) ∧
    (∀ b, best = some b → threshold ≤ b.score →
      ((8 : ℚ)/100 ≤ b.score - runnerUp ∨ strong ≤ b.score) →
      out.finalMood = b.mood ∧ out.isNewFamily = false ∧
      out.decision.bestMatch = some b.mood ∧ out.decision.bestScore = some b.score) ∧
    (out.decision.decidedBy = "ai-new" ↔
      (¬(∃ b, best = some b ∧ threshold ≤ b.score ∧
          ((8 : ℚ)/100 ≤ b.score - runnerUp ∨ strong ≤ b.score)) ∧
       suggestedMood ∉ existingFamilies)) ∧
    (out.decision.decidedBy = "ai-new" →
      out.finalMood = suggestedMood ∧ out.isNewFamily = true) ∧
    (out.decision.decidedBy = "ai-existing" ↔
      (¬(∃ b, best = some b ∧ threshold ≤ b.score ∧
          ((8 : ℚ)/100 ≤ b.score - runnerUp ∨ strong ≤ b.score)) ∧
       suggestedMood ∈ existingFamilies ∧
       (∃ a, scored.find? (fun e => e.mood == suggestedMood) = some a ∧
         threshold - 5/100 ≤ a.score))) ∧
    (out.decision.decidedBy = "ai-existing" →
      out.finalMood = suggestedMood ∧ out.isNewFamily = false) ∧
    (out.decision.decidedBy = "ai-override" ↔
      (¬(∃ b, best = some b ∧ threshold ≤ b.score ∧
          ((8 : ℚ)/100 ≤ b.score - runnerUp ∨ strong ≤ b.score)) ∧
       suggestedMood ∈ existingFamilies ∧
       ¬(∃ a, scored.find? (fun e => e.mood == suggestedMood) = some a ∧
         threshold - 5/100 ≤ a.score))) ∧
    (out.decision.decidedBy = "ai-override" →
      (∀ m, proposed = some m → m ≠ "" →
        out.finalMood = m ∧ (out.isNewFamily = true ↔ m ∉ existingFamilies)) ∧
      ((proposed = none ∨ proposed = some "") →
        out.finalMood = suggestedMood ∧ out.isNewFamily = false)) := by
  subst hscored
  subst hbest
  subst hrun
  subst hemb
  subst hthr
  subst hstrong
  subst hout
  rcases hE : scoredFamiliesOf embedSim candidate families with _ | ⟨b, rest⟩
  · -- no scored family at all: best = none, the similarity test cannot fire
    rw [decideClassification_nil embedSim existingFamilies families candidate
      suggestedMood proposed hE]
    have hsimFalse : ¬(∃ b2, ([] : List ScoredFamily).head? = some b2 ∧
        (if (isValidEmbedding candidate.embedding &&
            match ([] : List ScoredFamily).head? with
            | some b2 => b2.hasEmbedding | none => false) = true
          then (62 : ℚ)/100 else 52/100) ≤ b2.score ∧
        ((8 : ℚ)/100 ≤ b2.score -
            (match ([] : List ScoredFamily)[1]? with | some s => s.score | none => 0) ∨
         (if (isValidEmbedding candidate.embedding &&
            match ([] : List ScoredFamily).head? with
            | some b2 => b2.hasEmbedding | none => false) = true
          then (72 : ℚ)/100 else 6/10) ≤ b2.score)) := by
      rintro ⟨b2, hb2, _⟩
      simp at hb2
    have haiFalse : ¬(∃ a, ([] : List ScoredFamily).find?
          (fun e => e.mood == suggestedMood) = some a ∧
        (if (isValidEmbedding candidate.embedding &&
            match ([] : List ScoredFamily).head? with
            | some b2 => b2.hasEmbedding | none => false) = true
          then (62 : ℚ)/100 else 52/100) - 5/100 ≤ a.score) := by
      rintro ⟨a, ha, _⟩
      simp at ha
    have h9 : ∀ b2, ([] : List ScoredFamily).head? = some b2 →
        ∀ s ∈ ([] : List ScoredFamily), s.score ≤ b2.score := by
      intro b2 hb2
      simp at hb2
    have h3 : ∀ (P : Prop) b2, ([] : List ScoredFamily).head? = some b2 → P := by
      intro P b2 hb2
      simp at hb2
    by_cases hmem : suggestedMood ∈ existingFamilies
    · rw [fallback_override_none existingFamilies suggestedMood none (52/100) proposed hmem]
      refine ⟨h9, ⟨fun h => by simp [overrideDecision] at h, fun h => absurd h hsimFalse⟩,
        fun b2 hb2 _ _ => h3 _ b2 hb2,
        ⟨fun h => by simp [overrideDecision] at h, fun h => absurd hmem h.2⟩,
        fun h => by simp [overrideDecision] at h,
        ⟨fun h => by simp [overrideDecision] at h, fun h => absurd h.2.2 haiFalse⟩,
        fun h => by simp [overrideDecision] at h,
        ⟨fun _ => ⟨hsimFalse, hmem, haiFalse⟩, fun _ => rfl⟩,
        fun _ => overrideDecision_spec existingFamilies suggestedMood none proposed hmem⟩
    · rw [fallback_ai_new existingFamilies suggestedMood none none (52/100) proposed hmem]
      refine ⟨h9, ⟨fun h => by simp [overrideDecision] at h, fun h => absurd h hsimFalse⟩,
        fun b2 hb2 _ _ => h3 _ b2 hb2,
        ⟨fun _ => ⟨hsimFalse, hmem⟩, fun _ => rfl⟩,
        fun _ => ⟨rfl, rfl⟩,
        ⟨fun h => by simp [overrideDecision] at h, fun h => absurd h.2.1 hmem⟩,
        fun h => by simp [overrideDecision] at h,
        ⟨fun h => by simp [overrideDecision] at h, fun h => absurd h.2.1 hmem⟩,
        fun h => by simp [overrideDecision] at h⟩
  · -- best = some b
    simp only [List.head?_cons, List.getElem?_cons_succ]
    rw [decideClassification_cons embedSim existingFamilies families candidate
      suggestedMood proposed b rest hE]
    have h9 : ∀ b2, some b = some b2 → ∀ s ∈ b :: rest, s.score ≤ b2.score := by
      intro b2 hb2
      rw [Option.some_inj] at hb2
      subst hb2
      intro s hs
      exact scoredFamiliesOf_head_ge embedSim candidate families b (by rw [hE]; rfl)
        s (by rw [hE]; exact hs)
    by_cases hc : (if isValidEmbedding candidate.embedding && b.hasEmbedding
          then (62 : ℚ)/100 else 52/100) ≤ b.score ∧
        ((8 : ℚ)/100 ≤ b.score - (match rest[0]? with | some s => s.score | none => 0) ∨
         (if isValidEmbedding candidate.embedding && b.hasEmbedding
          then (72 : ℚ)/100 else 6/10) ≤ b.score)
    · rw [if_pos hc]
      have hsim : ∃ b2, some b = some b2 ∧
          (if (isValidEmbedding candidate.embedding && b.hasEmbedding) = true
            then (62 : ℚ)/100 else 52/100) ≤ b2.score ∧
          ((8 : ℚ)/100 ≤ b2.score - (match rest[0]? with | some s => s.score | none => 0) ∨
           (if (isValidEmbedding candidate.embedding && b.hasEmbedding) = true
            then (72 : ℚ)/100 else 6/10) ≤ b2.score) := ⟨b, rfl, hc.1, hc.2⟩
      refine ⟨h9, ⟨fun _ => hsim, fun _ => rfl⟩, ?_,
        ⟨fun h => by simp [overrideDecision] at h, fun h => absurd hsim h.1⟩,
        fun h => by simp [overrideDecision] at h,
        ⟨fun h => by simp [overrideDecision] at h, fun h => absurd hsim h.1⟩,
        fun h => by simp [overrideDecision] at h,
        ⟨fun h => by simp [overrideDecision] at h, fun h => absurd hsim h.1⟩,
        fun h => by simp [overrideDecision] at h⟩
      intro b2 hb2 _ _
      rw [Option.some_inj] at hb2
      subst hb2
      exact ⟨rfl, rfl, rfl, rfl⟩
    · rw [if_neg hc]
      have hsimFalse : ¬(∃ b2, some b = some b2 ∧
          (if (isValidEmbedding candidate.embedding && b.hasEmbedding) = true
            then (62 : ℚ)/100 else 52/100) ≤ b2.score ∧
          ((8 : ℚ)/100 ≤ b2.score - (match rest[0]? with | some s => s.score | none => 0) ∨
           (if (isValidEmbedding candidate.embedding && b.hasEmbedding) = true
            then (72 : ℚ)/100 else 6/10) ≤ b2.score)) := by
        rintro ⟨b2, hb2, h1, h2⟩
        rw [Option.some_inj] at hb2
        subst hb2
        exact hc ⟨h1, h2⟩
      have h3 : ∀ b2, some b = some b2 →
          (if (isValidEmbedding candidate.embedding && b.hasEmbedding) = true
            then (62 : ℚ)/100 else 52/100) ≤ b2.score →
          ((8 : ℚ)/100 ≤ b2.score - (match rest[0]? with | some s => s.score | none => 0) ∨
           (if (isValidEmbedding candidate.embedding && b.hasEmbedding) = true
            then (72 : ℚ)/100 else 6/10) ≤ b2.score) → False :=
        fun b2 hb2 h1 h2 => hsimFalse ⟨b2, hb2, h1, h2⟩
      by_cases hmem : suggestedMood ∈ existingFamilies
      · rcases hai : (b :: rest).find? (fun e => e.mood == suggestedMood) with _ | a
        · rw [hai]
          rw [fallback_override_none existingFamilies suggestedMood (some b) _ proposed hmem]
          have haiFalse : ¬(∃ a2, (none : Option ScoredFamily) = some a2 ∧
              (if (isValidEmbedding candidate.embedding && b.hasEmbedding) = true
                then (62 : ℚ)/100 else 52/100) - 5/100 ≤ a2.score) := by
            rintro ⟨a2, ha2, _⟩
            exact Option.noConfusion ha2
          refine ⟨h9, ⟨fun h => by simp [overrideDecision] at h, fun h => absurd h hsimFalse⟩,
            fun b2 hb2 h1 h2 => (h3 b2 hb2 h1 h2).elim,
            ⟨fun h => by simp [overrideDecision] at h, fun h => absurd hmem h.2⟩,
            fun h => by simp [overrideDecision] at h,
            ⟨fun h => by simp [overrideDecision] at h, fun h => absurd h.2.2 haiFalse⟩,
            fun h => by simp [overrideDecision] at h,
            ⟨fun _ => ⟨hsimFalse, hmem, haiFalse⟩, fun _ => rfl⟩,
            fun _ => overrideDecision_spec existingFamilies suggestedMood (some b) proposed hmem⟩
        · rw [hai]
          by_cases hsc : (if isValidEmbedding candidate.embedding && b.hasEmbedding
              then (62 : ℚ)/100 else 52/100) - 5/100 ≤ a.score
          · rw [fallback_ai_existing existingFamilies suggestedMood (some b) a _ proposed hmem hsc]
            have haiTrue : ∃ a2, some a = some a2 ∧
                (if (isValidEmbedding candidate.embedding && b.hasEmbedding) = true
                  then (62 : ℚ)/100 else 52/100) - 5/100 ≤ a2.score := ⟨a, rfl, hsc⟩
            refine ⟨h9, ⟨fun h => by simp [overrideDecision] at h, fun h => absurd h hsimFalse⟩,
              fun b2 hb2 h1 h2 => (h3 b2 hb2 h1 h2).elim,
              ⟨fun h => by simp [overrideDecision] at h, fun h => absurd hmem h.2⟩,
              fun h => by simp [overrideDecision] at h,
              ⟨fun _ => ⟨hsimFalse, hmem, haiTrue⟩, fun _ => rfl⟩,
              fun _ => ⟨rfl, rfl⟩,
              ⟨fun h => by simp [overrideDecision] at h, fun h => absurd haiTrue h.2.2⟩,
              fun h => by simp [overrideDecision] at h⟩
          · rw [fallback_override_low existingFamilies suggestedMood (some b) a _ proposed hmem hsc]
            have haiFalse : ¬(∃ a2, (some a : Option ScoredFamily) = some a2 ∧
                (if (isValidEmbedding candidate.embedding && b.hasEmbedding) = true
                  then (62 : ℚ)/100 else 52/100) - 5/100 ≤ a2.score) := by
              rintro ⟨a2, ha2, hs2⟩
              rw [Option.some_inj] at ha2
              subst ha2
              exact hsc hs2
            refine ⟨h9, ⟨fun h => by simp [overrideDecision] at h, fun h => absurd h hsimFalse⟩,
              fun b2 hb2 h1 h2 => (h3 b2 hb2 h1 h2).elim,
              ⟨fun h => by simp [overrideDecision] at h, fun h => absurd hmem h.2⟩,
              fun h => by simp [overrideDecision] at h,
              ⟨fun h => by simp [overrideDecision] at h, fun h => absurd h.2.2 haiFalse⟩,
              fun h => by simp [overrideDecision] at h,
              ⟨fun _ => ⟨hsimFalse, hmem, haiFalse⟩, fun _ => rfl⟩,
              fun _ => overrideDecision_spec existingFamilies suggestedMood (some b) proposed hmem⟩
      · rw [fallback_ai_new existingFamilies suggestedMood (some b) _ _ proposed hmem]
        refine ⟨h9, ⟨fun h => by simp [overrideDecision] at h, fun h => absurd h hsimFalse⟩,
          fun b2 hb2 h1 h2 => (h3 b2 hb2 h1 h2).elim,
          ⟨fun _ => ⟨hsimFalse, hmem⟩, fun _ => rfl⟩,
          fun _ => ⟨rfl, rfl⟩,
          ⟨fun h => by simp [overrideDecision] at h, fun h => absurd h.2.1 hmem⟩,
          fun h => by simp [overrideDecision] at h,
          ⟨fun h => by simp [overrideDecision] at h, fun h => absurd h.2.1 hmem⟩,
          fun h => by simp [overrideDecision] at h⟩

/-- C1 witness: the policy applied at a concrete input (one existing family
name, an empty profile sample, a suggested mood that is not an existing
family), concluding `decidedBy = "ai-new"`. -/
theorem classification_decision_policy_witness :
    (decideClassification (fun _ _ => (9 : ℚ)/10) ["Joy"] []
      ⟨[], ⟨[], [], [], [], []⟩, []⟩ "Grief" none).decision.decidedBy = "ai-new" := by
  have h := classification_decision_policy (fun _ _ => (9 : ℚ)/10) ["Joy"] []
    ⟨[], ⟨[], [], [], [], []⟩, []⟩ "Grief" none (by simp)
    _ rfl _ rfl _ rfl _ rfl _ _ rfl rfl _ rfl
  refine (h.2.2.2.1).mpr ⟨?_, ?_⟩
  · rintro ⟨b, hb, _⟩
    simp [scoredFamiliesOf, sortScoredDesc] at hb
  · decide

/-! ### C8 / C10: the cluster label resolver

The stateful union-find of `buildClusterMap` is verified against the pure
root assignment `specRoots`: parent chains are tracked by the `ChainsTo`
relation, and path compression and grafting are shown to preserve every
node's root. -/

lemma pget_cons (e : String × String) (rest : Parent) (k : String) :
    pget (e :: rest) k = if e.1 = k then some e.2 else pget rest k := by
  by_cases h : e.1 = k
  · simp [pget, List.find?_cons, h]
  · simp [pget, List.find?_cons, h]

lemma pget_pset_self (p : Parent) (k v : String) : pget (pset p k v) k = some v := by
  induction p with
  | nil => simp [pset, pget_cons]
  | cons e rest ih =>
    by_cases he : e.1 = k
    · simp [pset, he, pget_cons]
    · simp [pset, he, pget_cons, ih]

lemma pget_pset_ne (p : Parent) (k v k2 : String) (h : k2 ≠ k) :
    pget (pset p k v) k2 = pget p k2 := by
  induction p with
  | nil => simp [pset, pget_cons, pget, Ne.symm h]
  | cons e rest ih =>
    by_cases he : e.1 = k
    · subst he
      simp [pset, pget_cons, Ne.symm h]
    · simp only [pset, if_neg he]
      rw [pget_cons, pget_cons, ih]

lemma hasKey_pset (p : Parent) (k v z : String) (hk : hasKey p k = true) :
    hasKey (pset p k v) z = hasKey p z := by
  by_cases h : z = k
  · subst h
    have h2 : (pget p z).isSome = true := hk
    simp [hasKey, pget_pset_self, h2]
  · simp [hasKey, pget_pset_ne p k v z h]

/-- `ChainsTo p x r n`: from `x`, following parent pointers `n` times reaches
the fixpoint `r`. -/
inductive ChainsTo (p : Parent) : String → String → ℕ → Prop where
  | refl (r : String) : pget p r = some r → ChainsTo p r r 0
  | step (x y r : String) (n : ℕ) : pget p x = some y → y ≠ x →
      ChainsTo p y r n → ChainsTo p x r (n + 1)

lemma ChainsTo.fix {p : Parent} {x r : String} {n : ℕ} (h : ChainsTo p x r n) :
    pget p r = some r := by
  induction h with
  | refl r hr => exact hr
  | step x y r n hxy hne hch ih => exact ih

lemma ChainsTo.key {p : Parent} {x r : String} {n : ℕ} (h : ChainsTo p x r n) :
    hasKey p x = true := by
  cases h with
  | refl r hr => simp [hasKey, hr]
  | step x y r n hxy hne hch => simp [hasKey, hxy]

lemma ChainsTo.unique {p : Parent} {x r r2 : String} {n n2 : ℕ}
    (h1 : ChainsTo p x r n) (h2 : ChainsTo p x r2 n2) : r = r2 := by
  induction h1 generalizing r2 n2 with
  | refl r hr =>
    cases h2 with
    | refl _ _ => rfl
    | step _ y _ _ hxy hne _ =>
      rw [hr] at hxy
      exact absurd (Option.some_inj.mp hxy).symm hne
  | step x y r n hxy hne hch ih =>
    cases h2 with
    | refl _ hr2 =>
      rw [hr2] at hxy
      exact absurd (Option.some_inj.mp hxy).symm (fun he => hne he)
    | step _ y2 _ n3 hxy2 hne2 hch2 =>
      rw [hxy] at hxy2
      rw [← Option.some_inj.mp hxy2] at hch2
      exact ih hch2

lemma rootLoop_eq {p : Parent} {x r : String} {n : ℕ} (h : ChainsTo p x r n) :
    ∀ fuel, n < fuel → rootLoop fuel p x = r := by
  induction h with
  | refl r hr =>
    intro fuel hf
    match fuel, hf with
    | f + 1, _ => simp [rootLoop, hr]
  | step x y r n hxy hne hch ih =>
    intro fuel hf
    match fuel, hf with
    | f + 1, hf =>
      simp only [rootLoop, hxy]
      rw [if_neg hne]
      exact ih f (by omega)

/-- Every value of the parent map is a truthy key (holds throughout
`buildClusterMap`'s construction). -/
def ValuesOk (p : Parent) : Prop :=
  ∀ x y, pget p x = some y → y ≠ "" ∧ hasKey p y = true

/-- A path-compression write (`parent.set(current, root)` for a node on the
chain to `root`) shortens every chain without changing any root. -/
lemma chains_pset_compress {p : Parent} {cur root : String} {k : ℕ}
    (hch : ChainsTo p cur root k) (hne : cur ≠ root) :
    ∀ z rz m, ChainsTo p z rz m →
      ∃ m2, m2 ≤ m ∧ ChainsTo (pset p cur root) z rz m2 := by
  intro z rz m hz
  induction hz with
  | refl r hr =>
    by_cases hzc : r = cur
    · subst hzc
      exact absurd (ChainsTo.unique (ChainsTo.refl r hr) hch) hne
    · exact ⟨0, le_refl 0, ChainsTo.refl r (by rw [pget_pset_ne p cur root r hzc]; exact hr)⟩
  | step x y rz n hxy hyx hych ih =>
    by_cases hzc : x = cur
    · subst hzc
      have hrz : rz = root := ChainsTo.unique (ChainsTo.step x y rz n hxy hyx hych) hch
      subst hrz
      refine ⟨1, by omega, ?_⟩
      refine ChainsTo.step x rz rz 0 (pget_pset_self p x rz) (Ne.symm hne) ?_
      exact ChainsTo.refl rz (by rw [pget_pset_ne p x rz rz (Ne.symm hne)]; exact hch.fix)
    · obtain ⟨m2, hm2, hch2⟩ := ih
      exact ⟨m2 + 1, by omega,
        ChainsTo.step x y rz m2 (by rw [pget_pset_ne p cur root x hzc]; exact hxy) hyx hch2⟩

/-- Grafting `rb`'s root under `ra` leaves chains to any other root alone. -/
lemma chains_pset_graft_other {p : Parent} {rb ra : String}
    (hrb : pget p rb = some rb) :
    ∀ z rz m, ChainsTo p z rz m → rz ≠ rb → ChainsTo (pset p rb ra) z rz m := by
  intro z rz m hz
  induction hz with
  | refl r hr =>
    intro hne
    exact ChainsTo.refl r (by rw [pget_pset_ne p rb ra r hne]; exact hr)
  | step x y r n hxy hyx hch ih =>
    intro hne
    have hxb : x ≠ rb := by
      intro h
      subst h
      rw [hrb] at hxy
      exact hyx (Option.some_inj.mp hxy).symm
    exact ChainsTo.step x y r n
      (by rw [pget_pset_ne p rb ra x hxb]; exact hxy) hyx (ih hne)

/-- Grafting `rb` under `ra` redirects every chain that ended at `rb` to end
at `ra`, one step longer. -/
lemma chains_pset_graft_redirect {p : Parent} {rb ra : String}
    (hra : pget p ra = some ra) (hab : ra ≠ rb) :
    ∀ z r0 m, ChainsTo p z r0 m → r0 = rb →
      ChainsTo (pset p rb ra) z ra (m + 1) := by
  intro z r0 m hz
  induction hz with
  | refl r hr =>
    rintro rfl
    refine ChainsTo.step r ra ra 0 (pget_pset_self p r ra) hab ?_
    exact ChainsTo.refl ra (by rw [pget_pset_ne p r ra ra hab]; exact hra)
  | step x y r n hxy hyx hch ih =>
    rintro rfl
    have hrb : pget p r = some r := hch.fix
    have hxb : x ≠ r := by
      intro h
      subst h
      rw [hrb] at hxy
      exact hyx (Option.some_inj.mp hxy).symm
    exact ChainsTo.step x y ra (n + 1)
      (by rw [pget_pset_ne p r ra x hxb]; exact hxy) hyx (ih rfl)

lemma compressPath_spec : ∀ (fuel : ℕ) (p : Parent) (cur root : String) (k : ℕ),
    ChainsTo p cur root k → k < fuel →
    (∀ z, hasKey (compressPath fuel p cur root) z = hasKey p z) ∧
    (∀ z rz m, ChainsTo p z rz m →
      ∃ m2, m2 ≤ m ∧ ChainsTo (compressPath fuel p cur root) z rz m2) ∧
    (ValuesOk p → ValuesOk (compressPath fuel p cur root)) := by
  intro fuel
  induction fuel with
  | zero => intro p cur root k hch hk; omega
  | succ f ih =>
    intro p cur root k hch hk
    by_cases hcr : cur = root
    · have hid : compressPath (f + 1) p cur root = p := by simp [compressPath, hcr]
      rw [hid]
      exact ⟨fun z => rfl, fun z rz m hz => ⟨m, le_refl m, hz⟩, fun hv => hv⟩
    · cases hch with
      | refl r hr => exact absurd rfl hcr
      | step x y r n hxy hyx hych =>
        simp only [compressPath, if_neg hcr, hxy]
        have hcurkey : hasKey p cur = true := by simp [hasKey, hxy]
        have hq := chains_pset_compress (ChainsTo.step cur y root n hxy hyx hych) hcr
        obtain ⟨n2, hn2, hych2⟩ := hq y root n hych
        have hrec := ih (pset p cur root) y root n2 hych2 (by omega)
        refine ⟨?_, ?_, ?_⟩
        · intro z
          rw [hrec.1 z, hasKey_pset p cur root z hcurkey]
        · intro z rz m hz
          obtain ⟨m2, hm2, hz2⟩ := hq z rz m hz
          obtain ⟨m3, hm3, hz3⟩ := hrec.2.1 z rz m2 hz2
          exact ⟨m3, le_trans hm3 hm2, hz3⟩
        · intro hv
          refine hrec.2.2 ?_
          intro a bb hab
          by_cases hac : a = cur
          · subst hac
            rw [pget_pset_self] at hab
            have hbb : root = bb := Option.some_inj.mp hab
            subst hbb
            have hrootfix : pget p root = some root :=
              (ChainsTo.step a y root n hxy hyx hych).fix
            have hvv := hv root root hrootfix
            exact ⟨hvv.1, by rw [hasKey_pset p a root root hcurkey]; exact hvv.2⟩
          · rw [pget_pset_ne p cur root a hac] at hab
            have hvv := hv a bb hab
            exact ⟨hvv.1, by rw [hasKey_pset p cur root bb hcurkey]; exact hvv.2⟩

lemma findC_spec {p : Parent} {x r : String} {n fuel : ℕ}
    (hch : ChainsTo p x r n) (hn : n < fuel) (hv : ValuesOk p) :
    (findC fuel p x).1 = r ∧
    (∀ z, hasKey (findC fuel p x).2 z = hasKey p z) ∧
    (∀ z rz m, ChainsTo p z rz m →
      ∃ m2, m2 ≤ m ∧ ChainsTo (findC fuel p x).2 z rz m2) ∧
    ValuesOk (findC fuel p x).2 := by
  cases hch with
  | refl r hr =>
    have hne : x ≠ "" := (hv x x hr).1
    have heq : findC fuel p x = (x, p) := by
      match fuel, hn with
      | f + 1, _ =>
        simp only [findC, hr, if_neg hne]
        rw [rootLoop_eq (ChainsTo.refl x hr) (f + 1) (by omega)]
        simp [compressPath]
    rw [heq]
    exact ⟨rfl, fun z => rfl, fun z rz m hz => ⟨m, le_refl m, hz⟩, hv⟩
  | step x2 y r n hxy hyx hych =>
    have hyne : y ≠ "" := (hv x y hxy).1
    have hroot : rootLoop fuel p y = r := rootLoop_eq hych fuel (by omega)
    have heq : findC fuel p x = (r, compressPath fuel p x r) := by
      simp only [findC, hxy, if_neg hyne, hroot]
    rw [heq]
    have hcomp := compressPath_spec fuel p x r (n + 1)
      (ChainsTo.step x y r n hxy hyx hych) hn
    exact ⟨rfl, hcomp.1, hcomp.2.1, hcomp.2.2 hv⟩

/-- The invariant carried through `buildClusterMap`: values are truthy keys,
and every key chains to its `ρ`-root within `F` steps. -/
def RootedBy (p : Parent) (F : ℕ) (ρ : String → String) : Prop :=
  ValuesOk p ∧ ∀ x, hasKey p x = true → ∃ n, n ≤ F ∧ ChainsTo p x (ρ x) n

lemma RootedBy.mono {p : Parent} {F F2 : ℕ} {ρ : String → String}
    (h : RootedBy p F ρ) (hF : F ≤ F2) : RootedBy p F2 ρ := by
  refine ⟨h.1, fun x hx => ?_⟩
  obtain ⟨n, hn, hch⟩ := h.2 x hx
  exact ⟨n, le_trans hn hF, hch⟩

lemma findC_rooted {p : Parent} {F fuel : ℕ} {ρ : String → String} {x : String}
    (hr : RootedBy p F ρ) (hk : hasKey p x = true) (hF : F < fuel) :
    (findC fuel p x).1 = ρ x ∧
    RootedBy (findC fuel p x).2 F ρ ∧
    (∀ z, hasKey (findC fuel p x).2 z = hasKey p z) := by
  obtain ⟨n, hn, hch⟩ := hr.2 x hk
  have hs := @findC_spec p x (ρ x) n fuel hch (by omega) hr.1
  refine ⟨hs.1, ⟨hs.2.2.2, fun z hz => ?_⟩, hs.2.1⟩
  rw [hs.2.1 z] at hz
  obtain ⟨n2, hn2, hch2⟩ := hr.2 z hz
  obtain ⟨m2, hm2, hch3⟩ := hs.2.2.1 z (ρ z) n2 hch2
  refine ⟨m2, ?_, hch3⟩
  omega

/-- C10 ingredient: a `union` whose endpoint is not a key changes nothing. -/
lemma unionIds_dangling {p : Parent} {a b : String} {fuel : ℕ}
    (h : hasKey p a = false ∨ hasKey p b = false) :
    unionIds fuel p a b = p := by
  rcases h with h | h <;> simp [unionIds, h]

lemma unionIds_rooted {p : Parent} {F fuel : ℕ} {ρ : String → String} {a b : String}
    (hr : RootedBy p F ρ) (ha : hasKey p a = true) (hb : hasKey p b = true)
    (hF : F < fuel) :
    RootedBy (unionIds fuel p a b) (F + 1) (mergeRoot ρ a b) ∧
    (∀ z, hasKey (unionIds fuel p a b) z = hasKey p z) := by
  have hfa := findC_rooted hr ha hF
  have hkb1 : hasKey (findC fuel p a).2 b = true := by rw [hfa.2.2 b]; exact hb
  have hfb := findC_rooted hfa.2.1 hkb1 hF
  have hkeys2 : ∀ z, hasKey (findC fuel (findC fuel p a).2 b).2 z = hasKey p z := by
    intro z
    rw [hfb.2.2 z, hfa.2.2 z]
  have hunion : unionIds fuel p a b =
      (if (findC fuel p a).1 ≠ (findC fuel (findC fuel p a).2 b).1
       then pset (findC fuel (findC fuel p a).2 b).2
         (findC fuel (findC fuel p a).2 b).1 (findC fuel p a).1
       else (findC fuel (findC fuel p a).2 b).2) := by
    simp [unionIds, ha, hb]
  by_cases hne : ρ a = ρ b
  · have hmerge : mergeRoot ρ a b = ρ := by
      funext z
      simp only [mergeRoot]
      by_cases hz : ρ z = ρ b
      · rw [if_pos hz, hne, ← hz]
      · rw [if_neg hz]
    rw [hunion, if_neg (by rw [hfa.1, hfb.1]; simp [hne]), hmerge]
    exact ⟨(hfb.2.1).mono (by omega), hkeys2⟩
  · rw [hunion, if_pos (by rw [hfa.1, hfb.1]; exact hne)]
    rw [hfa.1, hfb.1]
    set p2 := (findC fuel (findC fuel p a).2 b).2 with hp2
    have hr2 : RootedBy p2 F ρ := hfb.2.1
    have hkb2 : hasKey p2 b = true := by rw [hkeys2 b]; exact hb
    have hka2 : hasKey p2 a = true := by rw [hkeys2 a]; exact ha
    obtain ⟨nb, hnb, hchb⟩ := hr2.2 b hkb2
    obtain ⟨na, hna, hcha⟩ := hr2.2 a hka2
    have hrbfix : pget p2 (ρ b) = some (ρ b) := hchb.fix
    have hrafix : pget p2 (ρ a) = some (ρ a) := hcha.fix
    have hrbkey : hasKey p2 (ρ b) = true := by simp [hasKey, hrbfix]
    constructor
    · constructor
      · -- ValuesOk of the grafted map
        intro z w hzw
        by_cases hz : z = ρ b
        · subst hz
          rw [pget_pset_self] at hzw
          have hw : ρ a = w := Option.some_inj.mp hzw
          subst hw
          have hva := hr2.1 (ρ a) (ρ a) hrafix
          exact ⟨hva.1, by rw [hasKey_pset p2 (ρ b) (ρ a) (ρ a) hrbkey]; exact hva.2⟩
        · rw [pget_pset_ne p2 (ρ b) (ρ a) z hz] at hzw
          have hvz := hr2.1 z w hzw
          exact ⟨hvz.1, by rw [hasKey_pset p2 (ρ b) (ρ a) w hrbkey]; exact hvz.2⟩
      · -- every key chains to its merged root
        intro x hx
        rw [hasKey_pset p2 (ρ b) (ρ a) x hrbkey] at hx
        obtain ⟨n, hn, hch⟩ := hr2.2 x hx
        by_cases hρ : ρ x = ρ b
        · refine ⟨n + 1, by omega, ?_⟩
          have := chains_pset_graft_redirect hrafix hne x (ρ x) n hch hρ
          simpa [mergeRoot, hρ] using this
        · refine ⟨n, by omega, ?_⟩
          have := @chains_pset_graft_other p2 (ρ b) (ρ a) hrbfix x (ρ x) n hch hρ
          simpa [mergeRoot, hρ] using this
    · intro z
      rw [hasKey_pset p2 (ρ b) (ρ a) z hrbkey]
      exact hkeys2 z

lemma memIds_ne_empty (mems : List VMemory) : ∀ i ∈ memIds mems, i ≠ "" := by
  intro i hi
  simp only [memIds, List.mem_filter] at hi
  simpa using hi.2

lemma initLoop (ms : List VMemory) : ∀ (p : Parent) (q : String → Bool),
    (∀ x, pget p x = if q x then some x else none) →
    ∀ x, pget (ms.foldl
        (fun p m => if idOf m ≠ "" then pset p (idOf m) (idOf m) else p) p) x
      = if (q x || (memIds ms).contains x) then some x else none := by
  induction ms with
  | nil =>
    intro p q hp x
    simp [memIds, hp x]
  | cons m ms ih =>
    intro p q hp x
    simp only [List.foldl_cons]
    by_cases hm : idOf m ≠ ""
    · rw [if_pos hm]
      have hp2 : ∀ x2, pget (pset p (idOf m) (idOf m)) x2 =
          if (x2 == idOf m || q x2) then some x2 else none := by
        intro x2
        by_cases hx2 : x2 = idOf m
        · subst hx2
          simp [pget_pset_self]
        · rw [pget_pset_ne p (idOf m) (idOf m) x2 hx2, hp x2]
          simp [hx2]
      rw [ih (pset p (idOf m) (idOf m)) _ hp2 x]
      have hids : memIds (m :: ms) = idOf m :: memIds ms := by
        simp [memIds, List.filter_cons, hm]
      rw [hids, List.contains_cons]
      congr 1
      cases hq : q x <;> cases hx : x == idOf m <;> simp [hq, hx]
    · rw [if_neg hm]
      rw [ih p q hp x]
      have hids : memIds (m :: ms) = memIds ms := by
        rw [not_not] at hm
        simp [memIds, List.filter_cons, hm]
      rw [hids]

lemma initParent_rooted (mems : List VMemory) :
    RootedBy (initParent mems) 0 (fun x => x) ∧
    (∀ z, hasKey (initParent mems) z = (memIds mems).contains z) := by
  have hg := initLoop mems [] (fun _ => false) (by intro x; simp [pget])
  have hchar : ∀ x, pget (initParent mems) x =
      if (memIds mems).contains x then some x else none := by
    intro x
    rw [initParent, hg x]
    simp
  have hkeys : ∀ z, hasKey (initParent mems) z = (memIds mems).contains z := by
    intro z
    rw [hasKey, hchar z]
    cases h : (memIds mems).contains z <;> simp
  refine ⟨⟨?_, ?_⟩, hkeys⟩
  · intro x y hxy
    rw [hchar x] at hxy
    by_cases hc : (memIds mems).contains x = true
    · rw [if_pos hc] at hxy
      have hyx : x = y := Option.some_inj.mp hxy
      subst hyx
      refine ⟨?_, by rw [hkeys x]; exact hc⟩
      exact memIds_ne_empty mems x (by simpa using hc)
    · rw [if_neg (by simpa using hc)] at hxy
      exact absurd hxy (by simp)
  · intro x hx
    refine ⟨0, le_refl 0, ChainsTo.refl x ?_⟩
    rw [hchar x]
    rw [hkeys x] at hx
    rw [if_pos hx]

lemma unionPhase_rooted (ids : List String) (hid : ∀ i ∈ ids, i ≠ "") (fuel : ℕ) :
    ∀ (ls : List VLink) (p : Parent) (F : ℕ) (ρ : String → String),
    RootedBy p F ρ → (∀ z, hasKey p z = ids.contains z) → F + ls.length < fuel →
    RootedBy (unionPhase fuel ls p) (F + ls.length) (ls.foldl (specRootsStep ids) ρ) ∧
    (∀ z, hasKey (unionPhase fuel ls p) z = ids.contains z) := by
  intro ls
  induction ls with
  | nil =>
    intro p F ρ hr hk _
    simp only [unionPhase, List.foldl_nil, List.length_nil, Nat.add_zero]
    exact ⟨hr, hk⟩
  | cons l ls ih =>
    intro p F ρ hr hk hF
    simp only [unionPhase, List.foldl_cons, List.length_cons] at *
    by_cases hin : l.fromId ∈ ids ∧ l.toId ∈ ids
    · have hfrom : hasKey p l.fromId = true := by
        rw [hk]
        simpa using hin.1
      have hto : hasKey p l.toId = true := by
        rw [hk]
        simpa using hin.2
      have hguard : l.fromId ≠ "" ∧ l.toId ≠ "" := ⟨hid _ hin.1, hid _ hin.2⟩
      rw [if_pos hguard]
      have hu := @unionIds_rooted p F fuel ρ l.fromId l.toId hr hfrom hto (by omega)
      have hspec : specRootsStep ids ρ l = mergeRoot ρ l.fromId l.toId := by
        rw [specRootsStep, if_pos hin]
      rw [hspec]
      have hrec := ih (unionIds fuel p l.fromId l.toId) (F + 1)
        (mergeRoot ρ l.fromId l.toId) hu.1
        (by intro z; rw [hu.2 z, hk z]) (by omega)
      refine ⟨hrec.1.mono (by omega), hrec.2⟩
    · have hspec : specRootsStep ids ρ l = ρ := by rw [specRootsStep, if_neg hin]
      rw [hspec]
      by_cases hg : l.fromId ≠ "" ∧ l.toId ≠ ""
      · rw [if_pos hg]
        have hdangle : hasKey p l.fromId = false ∨ hasKey p l.toId = false := by
          rcases not_and_or.mp hin with h | h
          · left
            rw [hk]
            simpa using h
          · right
            rw [hk]
            simpa using h
        rw [unionIds_dangling hdangle]
        have hrec := ih p F ρ hr hk (by omega)
        exact ⟨hrec.1.mono (by omega), hrec.2⟩
      · rw [if_neg hg]
        have hrec := ih p F ρ hr hk (by omega)
        exact ⟨hrec.1.mono (by omega), hrec.2⟩

/-- The pure tally: per-root insertion-ordered mood counts, independent of the
union-find state. -/
def tallyOf (mems : List VMemory) (ρ : String → String) : Tally :=
  mems.foldl
    (fun t2 m => if idOf m ≠ "" then upsertTally t2 (ρ (idOf m)) (normalizeMood m.mood) else t2) []

lemma tally_loop (fuel F : ℕ) (ρ : String → String) (ids : List String) :
    ∀ (ms : List VMemory) (p : Parent) (t : Tally),
      RootedBy p F ρ → (∀ z, hasKey p z = ids.contains z) → F < fuel →
      (∀ m ∈ ms, idOf m ≠ "" → (idOf m) ∈ ids) →
      (ms.foldl (tallyStep fuel) (p, t)).2
        = ms.foldl
            (fun t2 m => if idOf m ≠ "" then upsertTally t2 (ρ (idOf m)) (normalizeMood m.mood) else t2) t ∧
      RootedBy (ms.foldl (tallyStep fuel) (p, t)).1 F ρ ∧
      (∀ z, hasKey (ms.foldl (tallyStep fuel) (p, t)).1 z = ids.contains z) := by
  intro ms
  induction ms with
  | nil =>
    intro p t hr hk _ _
    exact ⟨rfl, hr, hk⟩
  | cons m ms ih =>
    intro p t hr hk hF hmem
    simp only [List.foldl_cons]
    by_cases hm : idOf m ≠ ""
    · have hkm : hasKey p (idOf m) = true := by
        rw [hk]
        simpa using hmem m (by simp) hm
      have hf := @findC_rooted p F fuel ρ (idOf m) hr hkm hF
      have hstep : tallyStep fuel (p, t) m =
          ((findC fuel p (idOf m)).2,
           upsertTally t (ρ (idOf m)) (normalizeMood m.mood)) := by
        simp only [tallyStep, if_pos hm, hf.1]
      rw [hstep, if_pos hm]
      exact ih (findC fuel p (idOf m)).2
        (upsertTally t (ρ (idOf m)) (normalizeMood m.mood)) hf.2.1
        (fun z => by rw [hf.2.2 z, hk z]) hF
        (fun m2 hm2 => hmem m2 (by simp [hm2]))
    · have hstep : tallyStep fuel (p, t) m = (p, t) := by
        simp only [tallyStep, if_neg hm]
      rw [hstep, if_neg hm]
      exact ih p t hr hk hF (fun m2 hm2 => hmem m2 (by simp [hm2]))

lemma lookupTally_cons (e : String × List (String × ℕ)) (rest : Tally) (r : String) :
    lookupTally (e :: rest) r = if e.1 = r then some e.2 else lookupTally rest r := by
  by_cases h : e.1 = r
  · simp [lookupTally, List.find?_cons, h]
  · simp [lookupTally, List.find?_cons, h]

lemma lookupTally_upsert (t : Tally) (root mood r : String) :
    lookupTally (upsertTally t root mood) r =
      if r = root then some (bumpCount ((lookupTally t root).getD []) mood)
      else lookupTally t r := by
  induction t with
  | nil =>
    by_cases h : r = root
    · subst h
      simp [upsertTally, lookupTally_cons, lookupTally, bumpCount]
    · rw [show upsertTally [] root mood = [(root, [(mood, 1)])] from rfl]
      rw [lookupTally_cons, if_neg (fun h2 : root = r => h h2.symm), if_neg h]
  | cons e rest ih =>
    by_cases he : e.1 = root
    · subst he
      by_cases h : r = e.1
      · subst h
        simp [upsertTally, lookupTally_cons]
      · have h2 : e.1 ≠ r := fun h3 => h h3.symm
        simp [upsertTally, lookupTally_cons, h, h2]
    · by_cases h : e.1 = r
      · subst h
        simp [upsertTally, he, lookupTally_cons, fun h2 : e.1 = root => he h2]
      · simp [upsertTally, he, lookupTally_cons, h, ih]

/-- The normalized moods, in list order, of the members whose root is `r`. -/
def moodsOfAt (ms : List VMemory) (ρ : String → String) (r : String) : List String :=
  (ms.filter fun m => idOf m ≠ "" && (ρ (idOf m) == r)).map fun m => normalizeMood m.mood

lemma tallyFold_lookup (ρ : String → String) :
    ∀ (ms : List VMemory) (t : Tally) (r : String),
    lookupTally (ms.foldl
        (fun t2 m => if idOf m ≠ "" then upsertTally t2 (ρ (idOf m)) (normalizeMood m.mood) else t2) t) r
      = if (moodsOfAt ms ρ r).isEmpty then lookupTally t r
        else some ((moodsOfAt ms ρ r).foldl bumpCount ((lookupTally t r).getD [])) := by
  intro ms
  induction ms with
  | nil =>
    intro t r
    simp [moodsOfAt]
  | cons m ms ih =>
    intro t r
    simp only [List.foldl_cons]
    by_cases hm : idOf m ≠ ""
    · rw [if_pos hm]
      by_cases hr : ρ (idOf m) = r
      · have hmoods : moodsOfAt (m :: ms) ρ r = normalizeMood m.mood :: moodsOfAt ms ρ r := by
          simp [moodsOfAt, List.filter_cons, hm, hr]
        rw [ih _ r, hmoods]
        rw [lookupTally_upsert, if_pos hr.symm, hr]
        cases hie : (moodsOfAt ms ρ r).isEmpty
        · simp only [hie, List.isEmpty_cons, Bool.false_eq_true, if_false]
          rw [List.foldl_cons]
          simp
        · have hnil : moodsOfAt ms ρ r = [] := by
            cases hmo : moodsOfAt ms ρ r
            · rfl
            · rw [hmo] at hie
              simp at hie
          simp only [hie, List.isEmpty_cons, Bool.false_eq_true, if_false, if_true, hnil]
          rw [List.foldl_cons]
          simp
      · have hmoods : moodsOfAt (m :: ms) ρ r = moodsOfAt ms ρ r := by
          simp [moodsOfAt, List.filter_cons, hm, hr]
        have hr2 : ¬(r = ρ (idOf m)) := fun h3 => hr h3.symm
        rw [ih _ r, hmoods, lookupTally_upsert, if_neg hr2]
    · rw [if_neg hm]
      have hmoods : moodsOfAt (m :: ms) ρ r = moodsOfAt ms ρ r := by
        simp [moodsOfAt, List.filter_cons, hm]
      rw [ih t r, hmoods]

lemma lookupTally_tallyOf (mems : List VMemory) (ρ : String → String) (r : String) :
    lookupTally (tallyOf mems ρ) r =
      if (moodsOfAt mems ρ r).isEmpty then none
      else some (countsOf (moodsOfAt mems ρ r)) := by
  rw [tallyOf, tallyFold_lookup]
  simp [lookupTally, countsOf]

lemma bumpCount_ne_nil (counts : List (String × ℕ)) (mood : String) :
    bumpCount counts mood ≠ [] := by
  cases counts with
  | nil => simp [bumpCount]
  | cons e rest =>
    rw [bumpCount]
    by_cases h : e.1 = mood <;> simp [h]

lemma foldl_bumpCount_ne_nil :
    ∀ (ms : List String) (c : List (String × ℕ)), c ≠ [] → ms.foldl bumpCount c ≠ [] := by
  intro ms
  induction ms with
  | nil => intro c hc; exact hc
  | cons m ms ih =>
    intro c _
    rw [List.foldl_cons]
    exact ih (bumpCount c m) (bumpCount_ne_nil c m)

lemma countsOf_ne_nil (moods : List String) (h : moods ≠ []) : countsOf moods ≠ [] := by
  cases moods with
  | nil => exact absurd rfl h
  | cons m ms =>
    rw [countsOf, List.foldl_cons]
    exact foldl_bumpCount_ne_nil ms (bumpCount [] m) (bumpCount_ne_nil [] m)

lemma bumpCount_keys (mood : String) :
    ∀ (counts : List (String × ℕ)) (e : String × ℕ), e ∈ bumpCount counts mood →
      e.1 = mood ∨ ∃ e2 ∈ counts, e.1 = e2.1 := by
  intro counts
  induction counts with
  | nil =>
    intro e he
    simp only [bumpCount, List.mem_singleton] at he
    left
    rw [he]
  | cons c rest ih =>
    intro e he
    rw [bumpCount] at he
    by_cases h : c.1 = mood
    · rw [if_pos h] at he
      rcases List.mem_cons.mp he with h1 | h1
      · left
        rw [h1]
        exact h
      · right
        exact ⟨e, List.mem_cons_of_mem c h1, rfl⟩
    · rw [if_neg h] at he
      rcases List.mem_cons.mp he with h1 | h1
      · right
        exact ⟨c, List.mem_cons_self c rest, by rw [h1]⟩
      · rcases ih e h1 with h2 | ⟨e2, he2, h3⟩
        · left
          exact h2
        · right
          exact ⟨e2, List.mem_cons_of_mem c he2, h3⟩

lemma foldl_bumpCount_keys :
    ∀ (ms : List String) (c : List (String × ℕ)) (e : String × ℕ),
      e ∈ ms.foldl bumpCount c → e.1 ∈ ms ∨ ∃ e2 ∈ c, e.1 = e2.1 := by
  intro ms
  induction ms with
  | nil =>
    intro c e he
    right
    exact ⟨e, he, rfl⟩
  | cons m ms ih =>
    intro c e he
    rw [List.foldl_cons] at he
    rcases ih (bumpCount c m) e he with h1 | ⟨e2, he2, h2⟩
    · left
      exact List.mem_cons_of_mem m h1
    · rcases bumpCount_keys m c e2 he2 with h3 | ⟨e3, he3, h4⟩
      · left
        rw [h2, h3]
        exact List.mem_cons_self m ms
      · right
        exact ⟨e3, he3, by rw [h2, h4]⟩

lemma countsOf_keys (moods : List String) :
    ∀ e ∈ countsOf moods, e.1 ∈ moods := by
  intro e he
  rcases foldl_bumpCount_keys moods [] e he with h | ⟨e2, he2, _⟩
  · exact h
  · exact absurd he2 (List.not_mem_nil e2)

lemma pickTop_fold_some :
    ∀ (cs : List (String × ℕ)) (acc : Option String × ℤ) (v : String), acc.1 = some v →
      ∃ w, (cs.foldl
        (fun acc e => if acc.2 < (e.2 : ℤ) then (some e.1, (e.2 : ℤ)) else acc) acc).1 = some w := by
  intro cs
  induction cs with
  | nil =>
    intro acc v hv
    exact ⟨v, hv⟩
  | cons c rest ih =>
    intro acc v hv
    rw [List.foldl_cons]
    by_cases h : acc.2 < (c.2 : ℤ)
    · rw [if_pos h]
      exact ih _ c.1 rfl
    · rw [if_neg h]
      exact ih acc v hv

lemma pickTop_fold_mem (P : String → Prop) :
    ∀ (cs : List (String × ℕ)) (acc : Option String × ℤ),
      (∀ v, acc.1 = some v → P v) → (∀ e ∈ cs, P e.1) →
      ∀ v, (cs.foldl
        (fun acc e => if acc.2 < (e.2 : ℤ) then (some e.1, (e.2 : ℤ)) else acc) acc).1 = some v →
      P v := by
  intro cs
  induction cs with
  | nil =>
    intro acc hacc _ v hv
    exact hacc v hv
  | cons c rest ih =>
    intro acc hacc hcs v hv
    rw [List.foldl_cons] at hv
    by_cases h : acc.2 < (c.2 : ℤ)
    · rw [if_pos h] at hv
      refine ih _ ?_ (fun e he => hcs e (List.mem_cons_of_mem c he)) v hv
      intro w hw
      have hcw : c.1 = w := Option.some_inj.mp hw
      rw [← hcw]
      exact hcs c (List.mem_cons_self c rest)
    · rw [if_neg h] at hv
      exact ih acc hacc (fun e he => hcs e (List.mem_cons_of_mem c he)) v hv

lemma pickTop_some (counts : List (String × ℕ)) (h : counts ≠ []) :
    ∃ v, pickTop counts = some v ∧ ∃ e ∈ counts, e.1 = v := by
  cases counts with
  | nil => exact absurd rfl h
  | cons c rest =>
    obtain ⟨w, hw⟩ := pickTop_fold_some rest (some c.1, (c.2 : ℤ)) c.1 rfl
    refine ⟨w, ?_, ?_⟩
    · rw [pickTop, List.foldl_cons]
      rw [if_pos (show ((none : Option String), (-1 : ℤ)).2 < (c.2 : ℤ) from by
        show (-1 : ℤ) < (c.2 : ℤ)
        omega)]
      exact hw
    · refine pickTop_fold_mem (fun v => ∃ e ∈ c :: rest, e.1 = v) rest
        (some c.1, (c.2 : ℤ)) ?_ ?_ w hw
      · intro v hv
        exact ⟨c, List.mem_cons_self c rest, Option.some_inj.mp hv⟩
      · intro e he
        exact ⟨e, List.mem_cons_of_mem c he, rfl⟩

lemma pickTop_all_eq (counts : List (String × ℕ)) (v : String) (h : counts ≠ [])
    (hall : ∀ e ∈ counts, e.1 = v) : pickTop counts = some v := by
  obtain ⟨w, hw, e, he, hev⟩ := pickTop_some counts h
  have hwv : w = v := by
    rw [← hev]
    exact hall e he
  rw [hw, hwv]

lemma normalizeMood_ne_empty (mood : Option String) : normalizeMood mood ≠ "" := by
  match mood with
  | none => simp [normalizeMood]
  | some s =>
    show (if jsTrim s = "" then "Fragment" else jsTrim s) ≠ ""
    by_cases h : jsTrim s = ""
    · rw [if_pos h]
      simp
    · rw [if_neg h]
      exact h

lemma moodsOfAt_self (mems : List VMemory) (ρ : String → String) (m : VMemory)
    (hm : m ∈ mems) (hid : idOf m ≠ "") :
    normalizeMood m.mood ∈ moodsOfAt mems ρ (ρ (idOf m)) := by
  rw [moodsOfAt]
  exact List.mem_map.mpr ⟨m, List.mem_filter.mpr ⟨hm, by simp [hid]⟩, rfl⟩

/-- The pure labeling step: the label each memory receives, as a function of
the finished tally and the root map alone. -/
def pureLabelStep (t : Tally) (ρ : String → String)
    (lab : List (String × String)) (m : VMemory) : List (String × String) :=
  if idOf m ≠ "" then
    match lookupTally t (ρ (idOf m)) with
    | some counts =>
      pset lab (idOf m)
        (match pickTop counts with
         | some topMood => if topMood = "" then normalizeMood m.mood else topMood
         | none => normalizeMood m.mood)
    | none => lab
  else lab

/-- The pure label map: what phase 4 produces, stripped of the union-find
state. -/
def labelsOf (mems : List VMemory) (t : Tally) (ρ : String → String) :
    List (String × String) :=
  mems.foldl (pureLabelStep t ρ) []

lemma label_loop (fuel F : ℕ) (ρ : String → String) (ids : List String) (t : Tally) :
    ∀ (ms : List VMemory) (p : Parent) (lab : List (String × String)),
      RootedBy p F ρ → (∀ z, hasKey p z = ids.contains z) → F < fuel →
      (∀ m ∈ ms, idOf m ≠ "" → (idOf m) ∈ ids) →
      (ms.foldl (labelStep fuel t) (p, lab)).2 = ms.foldl (pureLabelStep t ρ) lab := by
  intro ms
  induction ms with
  | nil =>
    intro p lab _ _ _ _
    rfl
  | cons m ms ih =>
    intro p lab hr hk hF hmem
    simp only [List.foldl_cons]
    by_cases hm : idOf m ≠ ""
    · have hkm : hasKey p (idOf m) = true := by
        rw [hk]
        simpa using hmem m (by simp) hm
      have hf := @findC_rooted p F fuel ρ (idOf m) hr hkm hF
      have hstep : labelStep fuel t (p, lab) m =
          ((findC fuel p (idOf m)).2, pureLabelStep t ρ lab m) := by
        simp only [labelStep, pureLabelStep, if_pos hm, hf.1]
        cases hlook : lookupTally t (ρ (idOf m)) with
        | none => rfl
        | some counts => rfl
      rw [hstep]
      exact ih (findC fuel p (idOf m)).2 (pureLabelStep t ρ lab m) hf.2.1
        (fun z => by rw [hf.2.2 z, hk z]) hF (fun m2 hm2 => hmem m2 (by simp [hm2]))
    · have hstep : labelStep fuel t (p, lab) m = (p, lab) := by
        simp only [labelStep, if_neg hm]
      have hstep2 : pureLabelStep t ρ lab m = lab := by
        simp only [pureLabelStep, if_neg hm]
      rw [hstep, hstep2]
      exact ih p lab hr hk hF (fun m2 hm2 => hmem m2 (by simp [hm2]))

lemma labelsFold_pget (t : Tally) (ρ : String → String) (x tm : String)
    (counts : List (String × ℕ)) (hx : x ≠ "")
    (hc : lookupTally t (ρ x) = some counts) (htop : pickTop counts = some tm)
    (htm : tm ≠ "") :
    ∀ (ms : List VMemory) (lab : List (String × String)),
      ((∃ m ∈ ms, idOf m = x) ∨ pget lab x = some tm) →
      pget (ms.foldl (pureLabelStep t ρ) lab) x = some tm := by
  intro ms
  induction ms with
  | nil =>
    intro lab h
    rcases h with ⟨m, hm, _⟩ | h
    · exact absurd hm (List.not_mem_nil m)
    · exact h
  | cons m ms ih =>
    intro lab h
    rw [List.foldl_cons]
    by_cases hmx : idOf m = x
    · have hstep : pureLabelStep t ρ lab m = pset lab x tm := by
        simp [pureLabelStep, hmx, hx, hc, htop, htm]
      rw [hstep]
      exact ih (pset lab x tm) (Or.inr (pget_pset_self lab x tm))
    · have hpres : pget (pureLabelStep t ρ lab m) x = pget lab x := by
        rw [pureLabelStep]
        by_cases hm : idOf m ≠ ""
        · rw [if_pos hm]
          cases hlook : lookupTally t (ρ (idOf m)) with
          | none => rfl
          | some cs => exact pget_pset_ne lab (idOf m) _ x (fun h2 => hmx h2.symm)
        · rw [if_neg hm]
      rcases h with ⟨m2, hm2, hm2x⟩ | h
      · rcases List.mem_cons.mp hm2 with h2 | h2
        · exact absurd (by rw [← h2]; exact hm2x) hmx
        · exact ih (pureLabelStep t ρ lab m) (Or.inl ⟨m2, h2, hm2x⟩)
      · rw [← hpres] at h
        exact ih (pureLabelStep t ρ lab m) (Or.inr h)

lemma mems_id_mem_ids (mems : List VMemory) :
    ∀ m ∈ mems, idOf m ≠ "" → idOf m ∈ memIds mems := by
  intro m hm hid2
  rw [memIds]
  exact List.mem_filter.mpr ⟨List.mem_map.mpr ⟨m, hm, rfl⟩, by simpa using hid2⟩

/-- `buildClusterMap` computes the pure label map of the pure root map: the
union-find with path compression refines `specRoots`, and the stateful tally
and label passes refine their pure folds. -/
lemma buildClusterMap_pure (mems : List VMemory) (links : List VLink) :
    buildClusterMap mems links =
      labelsOf mems (tallyOf mems (specRoots (memIds mems) links))
        (specRoots (memIds mems) links) := by
  have hinit := initParent_rooted mems
  have hunion := unionPhase_rooted (memIds mems) (memIds_ne_empty mems)
    (mems.length + links.length + 1) links (initParent mems) 0 (fun x => x)
    hinit.1 hinit.2 (by omega)
  simp only [Nat.zero_add] at hunion
  have htally := tally_loop (mems.length + links.length + 1) links.length
    (specRoots (memIds mems) links) (memIds mems) mems
    (unionPhase (mems.length + links.length + 1) links (initParent mems)) []
    hunion.1 hunion.2 (by omega) (mems_id_mem_ids mems)
  have hlabel := label_loop (mems.length + links.length + 1) links.length
    (specRoots (memIds mems) links) (memIds mems)
    (tallyOf mems (specRoots (memIds mems) links)) mems
    (mems.foldl (tallyStep (mems.length + links.length + 1))
      (unionPhase (mems.length + links.length + 1) links (initParent mems), [])).1 []
    htally.2.1 htally.2.2 (by omega) (mems_id_mem_ids mems)
  have hT : (tallyPhase (mems.length + links.length + 1) mems
      (unionPhase (mems.length + links.length + 1) links (initParent mems))).2 =
      tallyOf mems (specRoots (memIds mems) links) := htally.1
  show (labelPhase (mems.length + links.length + 1) mems
      (tallyPhase (mems.length + links.length + 1) mems
        (unionPhase (mems.length + links.length + 1) links (initParent mems))).1
      (tallyPhase (mems.length + links.length + 1) mems
        (unionPhase (mems.length + links.length + 1) links (initParent mems))).2).2 =
    labelsOf mems (tallyOf mems (specRoots (memIds mems) links))
      (specRoots (memIds mems) links)
  rw [labelPhase, hT]
  exact hlabel

/-- Every listed memory with a truthy id is labeled, and labeled with its
component's majority mood `specLabel` (which is never the empty string). -/
lemma buildClusterMap_label (mems : List VMemory) (links : List VLink) (m : VMemory)
    (hm : m ∈ mems) (hid : idOf m ≠ "") :
    pget (buildClusterMap mems links) (idOf m) = some (specLabel mems links m) ∧
    specLabel mems links m ≠ "" := by
  have hmoods : componentMoods mems links (idOf m) =
      moodsOfAt mems (specRoots (memIds mems) links)
        (specRoots (memIds mems) links (idOf m)) := rfl
  have hself := moodsOfAt_self mems (specRoots (memIds mems) links) m hm hid
  have hne : moodsOfAt mems (specRoots (memIds mems) links)
      (specRoots (memIds mems) links (idOf m)) ≠ [] := by
    intro h
    rw [h] at hself
    exact (List.not_mem_nil _) hself
  have hie : (moodsOfAt mems (specRoots (memIds mems) links)
      (specRoots (memIds mems) links (idOf m))).isEmpty = false := by
    cases hmo : moodsOfAt mems (specRoots (memIds mems) links)
        (specRoots (memIds mems) links (idOf m)) with
    | nil => exact absurd hmo hne
    | cons a l => rfl
  have hlook : lookupTally (tallyOf mems (specRoots (memIds mems) links))
      (specRoots (memIds mems) links (idOf m)) =
      some (countsOf (moodsOfAt mems (specRoots (memIds mems) links)
        (specRoots (memIds mems) links (idOf m)))) := by
    simp [lookupTally_tallyOf, hie]
  obtain ⟨tm, htop, e, he, hev⟩ := pickTop_some _ (countsOf_ne_nil _ hne)
  have htm_mem : tm ∈ moodsOfAt mems (specRoots (memIds mems) links)
      (specRoots (memIds mems) links (idOf m)) := by
    rw [← hev]
    exact countsOf_keys _ e he
  have htm_ne : tm ≠ "" := by
    rw [moodsOfAt] at htm_mem
    obtain ⟨m2, _, hm2⟩ := List.mem_map.mp htm_mem
    rw [← hm2]
    exact normalizeMood_ne_empty m2.mood
  have hspec : specLabel mems links m = tm := by
    simp [specLabel, hmoods, htop, htm_ne]
  refine ⟨?_, by rw [hspec]; exact htm_ne⟩
  rw [buildClusterMap_pure, labelsOf, hspec]
  exact labelsFold_pget (tallyOf mems (specRoots (memIds mems) links))
    (specRoots (memIds mems) links) (idOf m) tm _ hid hlook htop htm_ne mems []
    (Or.inl ⟨m, hm, rfl⟩)

/-- An id that no link mentions is its own `specRoots`-class: nothing maps onto
it and it maps to itself. -/
lemma specRoots_isolated (ids : List String) (links : List VLink) (x : String)
    (hx : ∀ l ∈ links, l.fromId ≠ x ∧ l.toId ≠ x) :
    ∀ z, (specRoots ids links z = x ↔ z = x) := by
  have main : ∀ (ls : List VLink), (∀ l ∈ ls, l.fromId ≠ x ∧ l.toId ≠ x) →
      ∀ (ρ : String → String), (∀ z, ρ z = x ↔ z = x) →
      ∀ z, (ls.foldl (specRootsStep ids) ρ z = x ↔ z = x) := by
    intro ls
    induction ls with
    | nil =>
      intro _ ρ hρ z
      exact hρ z
    | cons l ls ih =>
      intro hls ρ hρ z
      rw [List.foldl_cons]
      refine ih (fun l2 hl2 => hls l2 (List.mem_cons_of_mem l hl2)) _ ?_ z
      intro w
      simp only [specRootsStep]
      by_cases hin : l.fromId ∈ ids ∧ l.toId ∈ ids
      · rw [if_pos hin]
        simp only [mergeRoot]
        by_cases hw : ρ w = ρ l.toId
        · rw [if_pos hw]
          constructor
          · intro ha
            exact absurd ((hρ l.fromId).mp ha) (hls l (List.mem_cons_self l ls)).1
          · intro hwx
            exfalso
            have h1 : ρ w = x := (hρ w).mpr hwx
            have h2 : ρ l.toId = x := by
              rw [← hw]
              exact h1
            exact (hls l (List.mem_cons_self l ls)).2 ((hρ l.toId).mp h2)
        · rw [if_neg hw]
          exact hρ w
      · rw [if_neg hin]
        exact hρ w
  exact main links hx (fun z => z) (fun z => Iff.rfl)

/-- A memory no link mentions keeps its own mood: its component consists of
the memories sharing its id, so (when those agree on the normalized mood) the
majority mood is its own. -/
lemma specLabel_isolated (mems : List VMemory) (links : List VLink) (m : VMemory)
    (hm : m ∈ mems) (hid : idOf m ≠ "")
    (hiso : ∀ l ∈ links, l.fromId ≠ idOf m ∧ l.toId ≠ idOf m)
    (hsame : ∀ m2 ∈ mems, idOf m2 = idOf m → normalizeMood m2.mood = normalizeMood m.mood) :
    specLabel mems links m = normalizeMood m.mood := by
  have hfix := specRoots_isolated (memIds mems) links (idOf m) hiso
  have hall : ∀ v ∈ componentMoods mems links (idOf m), v = normalizeMood m.mood := by
    intro v hv
    rw [componentMoods] at hv
    obtain ⟨m2, hm2, hv2⟩ := List.mem_map.mp hv
    have hm2f := List.mem_filter.mp hm2
    have hcond := hm2f.2
    simp only [Bool.and_eq_true, beq_iff_eq, decide_eq_true_eq] at hcond
    have hroot_m : specRoots (memIds mems) links (idOf m) = idOf m :=
      (hfix (idOf m)).mpr rfl
    have hroot2 : specRoots (memIds mems) links (idOf m2) = idOf m := by
      rw [hcond.2, hroot_m]
    have hid2 : idOf m2 = idOf m := (hfix (idOf m2)).mp hroot2
    rw [← hv2]
    exact hsame m2 hm2f.1 hid2
  have hself : normalizeMood m.mood ∈ componentMoods mems links (idOf m) := by
    rw [componentMoods]
    exact List.mem_map.mpr ⟨m, List.mem_filter.mpr ⟨hm, by simp [hid]⟩, rfl⟩
  have hne : componentMoods mems links (idOf m) ≠ [] := by
    intro h
    rw [h] at hself
    exact (List.not_mem_nil _) hself
  have htop := pickTop_all_eq _ (normalizeMood m.mood) (countsOf_ne_nil _ hne)
    (fun e he => hall e.1 (countsOf_keys _ e he))
  simp [specLabel, htop, normalizeMood_ne_empty m.mood]

/-! ### C8: the cluster label resolver assigns the component majority mood -/

/-- C8: `buildClusterMap` labels every listed memory with a truthy id with
`specLabel`: the majority mood (ties to the first-encountered mood of the
tally) of its `specRoots` union-find component.  A memory mentioned by no link
(whose same-id duplicates, if any, agree on the normalized mood) is labeled by
its own normalized mood.  In particular, on the 3-node linked path A–B–C with
moods Joy, Joy, Grief each node is labeled "Joy". -/
theorem cluster_majority_labels (mems : List VMemory) (links : List VLink)
    (m : VMemory) (hm : m ∈ mems) (hid : idOf m ≠ "") :
    pget (buildClusterMap mems links) (idOf m) = some (specLabel mems links m) ∧
    ((∀ l ∈ links, l.fromId ≠ idOf m ∧ l.toId ≠ idOf m) →
     (∀ m2 ∈ mems, idOf m2 = idOf m → normalizeMood m2.mood = normalizeMood m.mood) →
     specLabel mems links m = normalizeMood m.mood) ∧
    (buildClusterMap
        [⟨some "A", some "Joy"⟩, ⟨some "B", some "Joy"⟩, ⟨some "C", some "Grief"⟩]
        [⟨"A", "B"⟩, ⟨"B", "C"⟩] =
      [("A", "Joy"), ("B", "Joy"), ("C", "Joy")]) := by
  refine ⟨(buildClusterMap_label mems links m hm hid).1,
    specLabel_isolated mems links m hm hid, ?_⟩
  decide

/-- C8 witness: on the 3-node path, the minority node C (mood Grief) is mapped
to its component's majority label, which evaluates to "Joy". -/
theorem cluster_majority_labels_witness :
    pget (buildClusterMap
        [⟨some "A", some "Joy"⟩, ⟨some "B", some "Joy"⟩, ⟨some "C", some "Grief"⟩]
        [⟨"A", "B"⟩, ⟨"B", "C"⟩]) "C" = some "Joy" := by
  have h := (cluster_majority_labels
    [⟨some "A", some "Joy"⟩, ⟨some "B", some "Joy"⟩, ⟨some "C", some "Grief"⟩]
    [⟨"A", "B"⟩, ⟨"B", "C"⟩] ⟨some "C", some "Grief"⟩ (by decide) (by decide)).1
  have h2 : specLabel
      [⟨some "A", some "Joy"⟩, ⟨some "B", some "Joy"⟩, ⟨some "C", some "Grief"⟩]
      [⟨"A", "B"⟩, ⟨"B", "C"⟩] ⟨some "C", some "Grief"⟩ = "Joy" := by decide
  rw [h2] at h
  exact h

/-! ### C10: totality of the resolver and dangling-link guards -/

/-- C10: the resolver is total and ignores dangling links.  (i) `union` on a
pair with an endpoint missing from the parent map changes nothing; (ii) the
matching pure root map ignores a link with a non-listed endpoint, so no
component changes; (iii) `find` on an id never entered into the parent map
returns that id itself and leaves the map unchanged; (iv) every listed memory
with a truthy id receives a label in the output map. -/
theorem cluster_resolver_total_and_guarded :
    (∀ (fuel : ℕ) (p : Parent) (a b : String),
       hasKey p a = false ∨ hasKey p b = false → unionIds fuel p a b = p) ∧
    (∀ (ids : List String) (ρ : String → String) (l : VLink),
       ¬(l.fromId ∈ ids ∧ l.toId ∈ ids) → specRootsStep ids ρ l = ρ) ∧
    (∀ (fuel : ℕ) (p : Parent) (x : String), pget p x = none →
       findC fuel p x = (x, p)) ∧
    (∀ (mems : List VMemory) (links : List VLink) (m : VMemory),
       m ∈ mems → idOf m ≠ "" →
       (pget (buildClusterMap mems links) (idOf m)).isSome = true) := by
  refine ⟨fun fuel p a b h => unionIds_dangling h, ?_, ?_, ?_⟩
  · intro ids ρ l h
    rw [specRootsStep, if_neg h]
  · intro fuel p x h
    simp [findC, h]
  · intro mems links m hm hid
    rw [(buildClusterMap_label mems links m hm hid).1]
    rfl

/-- C10 witness: a concrete dangling union is a no-op, a concrete find on an
absent id returns the id, the matching pure step is the identity, and a
listed memory receives a label. -/
theorem cluster_resolver_total_and_guarded_witness :
    unionIds 3 [("a", "a")] "a" "zz" = [("a", "a")] ∧
    specRootsStep ["a"] (fun z => z) ⟨"a", "zz"⟩ = (fun z => z) ∧
    findC 3 [("a", "a")] "zz" = ("zz", [("a", "a")]) ∧
    (pget (buildClusterMap [⟨some "A", some "Joy"⟩] [])
      (idOf ⟨some "A", some "Joy"⟩)).isSome = true := by
  refine ⟨?_, ?_, ?_, ?_⟩
  · exact cluster_resolver_total_and_guarded.1 3 [("a", "a")] "a" "zz"
      (Or.inr (by decide))
  · exact cluster_resolver_total_and_guarded.2.1 ["a"] (fun z => z) ⟨"a", "zz"⟩
      (by decide)
  · exact cluster_resolver_total_and_guarded.2.2.1 3 [("a", "a")] "zz" (by decide)
  · exact cluster_resolver_total_and_guarded.2.2.2 [⟨some "A", some "Joy"⟩] []
      ⟨some "A", some "Joy"⟩ (by decide) (by decide)

end MemoryCloud
